import Mathlib

/-!
Shallow embedding of the blobbers EIP-4844 blob packers:

* namespace `packer` embeds src/packer.rs, the byte-aligned naive
  strategy that stores 31 payload bytes in every 32-byte field element;
* namespace `packer_tight` embeds src/packer_tight.rs, the bit-aligned
  tight strategy that stores 254 payload bits in every 256-bit field
  element.

Bytes are modelled as natural numbers (payload bytes are below 256),
byte buffers as lists of naturals, single bits as naturals below 2 in
most-significant-bit-first order.  Rust code whose slice indexing can go
out of bounds is modelled with `Option`: `none` models the aborted
(panicking) execution, `some r` a normal return with result `r`.  The
unpacking direction lives in the test modules of the two Rust files
(`unpad`, `clean_field_elements`, `clean_field_elements_tight` and the
composition each test uses); it is embedded from there.
-/

/-- Splits a list into consecutive chunks of `k + 1` elements, the last
chunk possibly shorter; models the `chunks` iterator of a Rust slice or
bitvec (the parameter is one less than the chunk size so that the chunk
size is positive by construction). -/
def chunksOf (k : Nat) : List Nat → List (List Nat)
  | [] => []
  | b :: bs => (b :: bs.take k) :: chunksOf k (bs.drop k)
termination_by l => l.length
decreasing_by simp only [List.length_drop, List.length_cons]; omega

namespace packer

/-- Embeds FIELD_ELEMENTS_PER_BLOB from src/packer.rs. -/
def FIELD_ELEMENTS_PER_BLOB : Nat := 1016

/-- Embeds MAX_BLOBS_PER_TX from src/packer.rs. -/
def MAX_BLOBS_PER_TX : Nat := 2

/-- Embeds BYTES_PER_FIELD_ELEMENT from src/packer.rs. -/
def BYTES_PER_FIELD_ELEMENT : Nat := 32

/-- Embeds USEFUL_BYTES_PER_FIELD_ELEMENT from src/packer.rs. -/
def USEFUL_BYTES_PER_FIELD_ELEMENT : Nat := 31

/-- Embeds USEFUL_BYTES_PER_BLOB from src/packer.rs. -/
def USEFUL_BYTES_PER_BLOB : Nat := USEFUL_BYTES_PER_FIELD_ELEMENT * FIELD_ELEMENTS_PER_BLOB

/-- Embeds MAX_USEFUL_BYTES_PER_TX from src/packer.rs. -/
def MAX_USEFUL_BYTES_PER_TX : Nat := USEFUL_BYTES_PER_BLOB * MAX_BLOBS_PER_TX - 1

/-- Embeds BLOB_SIZE from src/packer.rs. -/
def BLOB_SIZE : Nat := BYTES_PER_FIELD_ELEMENT * FIELD_ELEMENTS_PER_BLOB

/-- Embeds the PackingError enum from src/packer.rs. -/
inductive PackingError where
  | DataLengthError
  | UnpadError
deriving DecidableEq

/-- Embeds get_padded from src/packer.rs.  The Rust function allocates a
zero vector of n_blobs*USEFUL_BYTES_PER_BLOB bytes, copies data into its
prefix, and writes 0x80 at index data.len(); when data.len() is not
strictly below the buffer size that marker write is out of bounds and the
call aborts, which is modelled by `none`. -/
def get_padded (data : List Nat) (n_blobs : Nat) : Option (List Nat) :=
  if data.length < n_blobs * USEFUL_BYTES_PER_BLOB then
    some (data ++ 0x80 :: List.replicate (n_blobs * USEFUL_BYTES_PER_BLOB - data.length - 1) 0)
  else
    none

/-- Embeds get_blob from src/packer.rs: for i in 0..FIELD_ELEMENTS_PER_BLOB
the 32-byte slice i of the blob receives the 31-byte slice i of `data`
followed by the zero byte the chunk buffer keeps at index 31.  The Rust
argument is a fixed-size array of USEFUL_BYTES_PER_BLOB bytes. -/
def get_blob (data : List Nat) : List Nat :=
  (List.range FIELD_ELEMENTS_PER_BLOB).flatMap fun i =>
    ((data.drop (i * USEFUL_BYTES_PER_FIELD_ELEMENT)).take USEFUL_BYTES_PER_FIELD_ELEMENT) ++ [0]

/-- Embeds get_blobs_from_data from src/packer.rs: reject empty and
oversized inputs with DataLengthError, compute the blob count with
div_ceil, pad, then encode each USEFUL_BYTES_PER_BLOB-byte chunk of the
padded buffer with get_blob. -/
def get_blobs_from_data (data : List Nat) : Option (Except PackingError (List (List Nat))) :=
  if data.length = 0 then
    some (.error .DataLengthError)
  else if MAX_USEFUL_BYTES_PER_TX < data.length then
    some (.error .DataLengthError)
  else
    match get_padded data ((data.length + USEFUL_BYTES_PER_BLOB - 1) / USEFUL_BYTES_PER_BLOB) with
    | none => none
    | some padded_data =>
      some (.ok ((List.range ((data.length + USEFUL_BYTES_PER_BLOB - 1) / USEFUL_BYTES_PER_BLOB)).map
        fun i => get_blob ((padded_data.drop (i * USEFUL_BYTES_PER_BLOB)).take USEFUL_BYTES_PER_BLOB)))

/-- Helper for `unpad`: the Rust loop walks the indices from the back, so
it is embedded as structural recursion over the reversed buffer. -/
def unpadRev : List Nat → Except PackingError (List Nat)
  | [] => .error .UnpadError
  | b :: rest =>
    if b = 0x80 then .ok rest.reverse
    else if b = 0x00 then unpadRev rest
    else .error .UnpadError

/-- Embeds unpad from the test module of src/packer.rs: scan from the last
byte backwards, skip 0x00 bytes, return the prefix before the first
non-zero byte when that byte is 0x80, and fail otherwise. -/
def unpad (data : List Nat) : Except PackingError (List Nat) :=
  unpadRev data.reverse

/-- Helper for `clean_field_elements`: the Rust retain closure increments
a counter per element and keeps the element when counter % 32 is non-zero,
so the byte at 0-based position p survives iff (p + 1) % 32 is non-zero. -/
def clean_from (index : Nat) : List Nat → List Nat
  | [] => []
  | b :: rest =>
    if (index + 1) % 32 = 0 then clean_from (index + 1) rest
    else b :: clean_from (index + 1) rest

/-- Embeds clean_field_elements from the test module of src/packer.rs:
drop the last byte of every 32-byte field element. -/
def clean_field_elements (data : List Nat) : List Nat :=
  clean_from 0 data

/-- Embeds the unpacking direction exercised by the pack test of
src/packer.rs: concatenate the blobs, unpad the concatenation, then
clean the field elements of the recovered prefix. -/
def unpack (blobs : List (List Nat)) : Except PackingError (List Nat) :=
  match unpad blobs.flatten with
  | .ok d => .ok (clean_field_elements d)
  | .error e => .error e

/-- Proof-side normal form of the get_blob loop: peel one 31-byte group
and its reserved zero byte per field element. -/
def enc31 : Nat → List Nat → List Nat
  | 0, _ => []
  | k + 1, d => d.take 31 ++ 0 :: enc31 k (d.drop 31)

end packer

namespace packer_tight

/-- Embeds MAX_BLOBS_PER_TX from src/packer_tight.rs. -/
def MAX_BLOBS_PER_TX : Nat := 2

/-- Embeds FIELD_ELEMENTS_PER_BLOB from src/packer_tight.rs. -/
def FIELD_ELEMENTS_PER_BLOB : Nat := 4096

/-- Embeds USEFUL_BYTES_PER_TIGHT_BLOB from src/packer_tight.rs. -/
def USEFUL_BYTES_PER_TIGHT_BLOB : Nat := 254 * FIELD_ELEMENTS_PER_BLOB / 8

/-- Embeds MAX_TIGHT_USEFUL_BYTES_PER_TX from src/packer_tight.rs. -/
def MAX_TIGHT_USEFUL_BYTES_PER_TX : Nat := USEFUL_BYTES_PER_TIGHT_BLOB * MAX_BLOBS_PER_TX - 1

/-- Embeds BYTES_PER_FIELD_ELEMENT from src/packer_tight.rs. -/
def BYTES_PER_FIELD_ELEMENT : Nat := 32

/-- Embeds BLOB_SIZE from src/packer_tight.rs. -/
def BLOB_SIZE : Nat := BYTES_PER_FIELD_ELEMENT * FIELD_ELEMENTS_PER_BLOB

/-- Embeds the PackingError enum from src/packer_tight.rs. -/
inductive PackingError where
  | DataLengthError
  | UnpadError
deriving DecidableEq

/-- Embeds get_padded_tight from src/packer_tight.rs; as in the naive
strategy, the 0x80 marker write at index data.len() is out of bounds
unless data.len() is strictly below the buffer size, modelled by
`none`. -/
def get_padded_tight (data : List Nat) (n_blobs : Nat) : Option (List Nat) :=
  if data.length < n_blobs * USEFUL_BYTES_PER_TIGHT_BLOB then
    some (data ++ 0x80 ::
      List.replicate (n_blobs * USEFUL_BYTES_PER_TIGHT_BLOB - data.length - 1) 0)
  else
    none

/-- The eight bits of one byte, most significant first, as naturals below
2; models viewing one byte of a bitvec as BitSlice with Msb0 ordering. -/
def byteToBits (b : Nat) : List Nat :=
  [b / 128 % 2, b / 64 % 2, b / 32 % 2, b / 16 % 2, b / 8 % 2, b / 4 % 2, b / 2 % 2, b % 2]

/-- The Msb0 bitstream of a byte buffer (BitSlice::try_from_slice). -/
def bytesToBits (data : List Nat) : List Nat :=
  (data.map byteToBits).flatten

/-- One byte from at most eight Msb0 bits; a short group is padded with
zero bits at the low end, as a bitvec padded with zero bits is. -/
def bitsToByte (bs : List Nat) : Nat :=
  (bs ++ List.replicate (8 - bs.length) 0).foldl (fun acc bit => 2 * acc + bit) 0

/-- Byte buffer of an Msb0 bitstream (BitVec::into_vec). -/
def bitsToBytes (bs : List Nat) : List Nat :=
  (chunksOf 7 bs).map bitsToByte

/-- Embeds get_packed_blob from src/packer_tight.rs: view `data` as an
Msb0 bitstream, split it into chunks of 254 bits, write every chunk into
the high bits of a zeroed 32-byte buffer, and store the buffers at
consecutive 32-byte offsets of a zeroed blob.  The Rust argument is a
fixed-size array of USEFUL_BYTES_PER_TIGHT_BLOB bytes, so the chunks
fill the blob exactly; the trailing replicate keeps the bytes the loop
never writes at zero, like the zero-initialised Rust blob. -/
def get_packed_blob (data : List Nat) : List Nat :=
  let pieces := (chunksOf 253 (bytesToBits data)).map
    fun c => bitsToBytes (c ++ List.replicate (BYTES_PER_FIELD_ELEMENT * 8 - c.length) 0)
  pieces.flatten ++ List.replicate (BLOB_SIZE - BYTES_PER_FIELD_ELEMENT * pieces.length) 0

/-- Embeds get_blobs_from_data from src/packer_tight.rs: reject empty and
oversized inputs with DataLengthError, compute the blob count with
div_ceil, pad, then encode each USEFUL_BYTES_PER_TIGHT_BLOB-byte chunk of
the padded buffer with get_packed_blob. -/
def get_blobs_from_data (data : List Nat) : Option (Except PackingError (List (List Nat))) :=
  if data.length = 0 then
    some (.error .DataLengthError)
  else if MAX_TIGHT_USEFUL_BYTES_PER_TX < data.length then
    some (.error .DataLengthError)
  else
    match get_padded_tight data
        ((data.length + USEFUL_BYTES_PER_TIGHT_BLOB - 1) / USEFUL_BYTES_PER_TIGHT_BLOB) with
    | none => none
    | some padded_data =>
      some (.ok ((List.range
          ((data.length + USEFUL_BYTES_PER_TIGHT_BLOB - 1) / USEFUL_BYTES_PER_TIGHT_BLOB)).map
        fun i => get_packed_blob
          ((padded_data.drop (i * USEFUL_BYTES_PER_TIGHT_BLOB)).take USEFUL_BYTES_PER_TIGHT_BLOB)))

/-- Helper for `unpad`: the Rust loop walks the indices from the back, so
it is embedded as structural recursion over the reversed buffer. -/
def unpadRev : List Nat → Except PackingError (List Nat)
  | [] => .error .UnpadError
  | b :: rest =>
    if b = 0x80 then .ok rest.reverse
    else if b = 0x00 then unpadRev rest
    else .error .UnpadError

/-- Embeds unpad from the test module of src/packer_tight.rs: scan from
the last byte backwards, skip 0x00 bytes, return the prefix before the
first non-zero byte when that byte is 0x80, and fail otherwise. -/
def unpad (data : List Nat) : Except PackingError (List Nat) :=
  unpadRev data.reverse

/-- Helper for `clean_field_elements_tight`: the bitvec retain keeps the
bit at index idx iff idx % 256 < 254, dropping the two reserved low bits
of every field element. -/
def cleanBits_from (idx : Nat) : List Nat → List Nat
  | [] => []
  | b :: rest =>
    if idx % 256 < 254 then b :: cleanBits_from (idx + 1) rest
    else cleanBits_from (idx + 1) rest

/-- Embeds clean_field_elements_tight from the test module of
src/packer_tight.rs: view the bytes as an Msb0 bitvec, drop the last two
bits of every 256-bit field element, and return the remaining bits as
bytes. -/
def clean_field_elements_tight (data : List Nat) : List Nat :=
  bitsToBytes (cleanBits_from 0 (bytesToBits data))

/-- Embeds the unpacking direction exercised by the
pack_then_unpack_then_verify test of src/packer_tight.rs: concatenate the
blobs, clean the field elements, then unpad. -/
def unpack (blobs : List (List Nat)) : Except PackingError (List Nat) :=
  unpad (clean_field_elements_tight blobs.flatten)

end packer_tight

namespace packer

theorem unpadRev_zeros_append {zs rest : List Nat} (hzs : ∀ z ∈ zs, z = 0) :
    unpadRev (zs ++ rest) = unpadRev rest := by
  induction zs with
  | nil => rfl
  | cons z zs ih =>
    have hz : z = 0 := hzs z (by simp)
    subst hz
    simpa [unpadRev] using ih fun z hz => hzs z (by simp [hz])

theorem unpad_marker {xs zs : List Nat} (hzs : ∀ z ∈ zs, z = 0) :
    unpad (xs ++ 0x80 :: zs) = .ok xs := by
  have : (xs ++ 0x80 :: zs).reverse = zs.reverse ++ 0x80 :: xs.reverse := by
    simp
  rw [unpad, this, unpadRev_zeros_append (by simpa using hzs)]
  simp [unpadRev]

theorem unpad_bad_byte {xs zs : List Nat} {y : Nat} (hzs : ∀ z ∈ zs, z = 0)
    (hy0 : y ≠ 0) (hy80 : y ≠ 0x80) :
    unpad (xs ++ y :: zs) = .error .UnpadError := by
  have : (xs ++ y :: zs).reverse = zs.reverse ++ y :: xs.reverse := by
    simp
  rw [unpad, this, unpadRev_zeros_append (by simpa using hzs)]
  simp [unpadRev, hy0, hy80]

theorem unpad_all_zero {zs : List Nat} (hzs : ∀ z ∈ zs, z = 0) :
    unpad zs = .error .UnpadError := by
  rw [unpad, show zs.reverse = zs.reverse ++ [] by simp,
    unpadRev_zeros_append (by simpa using hzs)]
  rfl

theorem flatMap_range_enc31 :
    ∀ (n : Nat) (d : List Nat),
      ((List.range n).flatMap fun i => ((d.drop (i * 31)).take 31) ++ [0]) = enc31 n d
  | 0, _ => rfl
  | n + 1, d => by
    rw [List.range_succ_eq_map, List.flatMap_cons, List.flatMap_map]
    have h1 : (fun i : Nat => ((d.drop (Nat.succ i * 31)).take 31) ++ [0])
        = fun i : Nat => (((d.drop 31).drop (i * 31)).take 31) ++ [0] := by
      funext i
      rw [List.drop_drop]
      have h2 : Nat.succ i * 31 = 31 + i * 31 := by omega
      rw [h2]
    rw [h1, flatMap_range_enc31 n (d.drop 31)]
    simp [enc31]

theorem get_blob_eq_enc31 (d : List Nat) : get_blob d = enc31 FIELD_ELEMENTS_PER_BLOB d := by
  rw [get_blob, ← flatMap_range_enc31 FIELD_ELEMENTS_PER_BLOB d]
  rfl

theorem enc31_split : ∀ (a b : Nat) (d : List Nat),
    enc31 (a + b) d = enc31 a d ++ enc31 b (d.drop (31 * a))
  | 0, b, d => by simp [enc31]
  | a + 1, b, d => by
    have h1 : a + 1 + b = (a + b) + 1 := by omega
    rw [h1]
    show d.take 31 ++ 0 :: enc31 (a + b) (d.drop 31)
      = (d.take 31 ++ 0 :: enc31 a (d.drop 31)) ++ enc31 b (d.drop (31 * (a + 1)))
    rw [enc31_split a b (d.drop 31), List.drop_drop]
    have h2 : 31 + 31 * a = 31 * (a + 1) := by omega
    rw [h2]
    simp

theorem enc31_take : ∀ (k : Nat) (d : List Nat), enc31 k (d.take (31 * k)) = enc31 k d
  | 0, d => rfl
  | k + 1, d => by
    show (d.take (31 * (k + 1))).take 31 ++ 0 :: enc31 k ((d.take (31 * (k + 1))).drop 31)
      = d.take 31 ++ 0 :: enc31 k (d.drop 31)
    rw [List.take_take, Nat.min_def, if_pos (by omega), List.drop_take]
    have h1 : 31 * (k + 1) - 31 = 31 * k := by omega
    rw [h1, enc31_take k (d.drop 31)]

theorem enc31_zeros : ∀ (k z : Nat), ∀ b ∈ enc31 k (List.replicate z 0), b = 0
  | 0, _ => by simp [enc31]
  | k + 1, z => by
    intro b hb
    simp only [enc31, List.take_replicate, List.drop_replicate, List.mem_append,
      List.mem_cons] at hb
    rcases hb with h | h | h
    · exact List.eq_of_mem_replicate h
    · exact h
    · exact enc31_zeros k (z - 31) b h

theorem clean_from_append : ∀ (a : List Nat) (k : Nat) (b : List Nat),
    clean_from k (a ++ b) = clean_from k a ++ clean_from (k + a.length) b
  | [], k, b => by simp [clean_from]
  | x :: a, k, b => by
    have ih := clean_from_append a (k + 1) b
    have h1 : k + (a.length + 1) = k + 1 + a.length := by omega
    by_cases h : (k + 1) % 32 = 0
    · simp only [List.cons_append, clean_from, if_pos h, List.length_cons, h1]
      exact ih
    · simp only [List.cons_append, clean_from, if_neg h, List.length_cons, h1]
      exact congrArg (x :: ·) ih

theorem clean_from_keep_all : ∀ (a : List Nat) (k : Nat),
    (∀ i, i < a.length → (k + i + 1) % 32 ≠ 0) → clean_from k a = a
  | [], _, _ => rfl
  | x :: a, k, h => by
    have h0 : (k + 1) % 32 ≠ 0 := by
      have := h 0 (by simp)
      omega
    rw [clean_from, if_neg h0, clean_from_keep_all a (k + 1) ?_]
    intro i hi
    have := h (i + 1) (by simp; omega)
    omega

theorem clean_from_congr : ∀ (a : List Nat) (k j : Nat), k % 32 = j % 32 →
    clean_from k a = clean_from j a
  | [], _, _, _ => rfl
  | x :: a, k, j, h => by
    have h1 : (k + 1) % 32 = (j + 1) % 32 := by omega
    have ih := clean_from_congr a (k + 1) (j + 1) h1
    by_cases h2 : (k + 1) % 32 = 0
    · rw [clean_from, clean_from, if_pos h2, if_pos (by omega), ih]
    · rw [clean_from, clean_from, if_neg h2, if_neg (by omega), ih]

theorem enc31_padded_split : ∀ (n : Nat) (d : List Nat) (z : Nat),
    d.length + 1 + z = 31 * n →
    ∃ Q zs, enc31 n (d ++ 0x80 :: List.replicate z 0) = Q ++ 0x80 :: zs ∧
      (∀ x ∈ zs, x = 0) ∧ clean_from 0 Q = d ∧ Q.length = d.length + d.length / 31
  | 0, d, z, hlen => by omega
  | n + 1, d, z, hlen => by
    by_cases hd : 31 ≤ d.length
    · have hdrop : (d ++ 0x80 :: List.replicate z 0).drop 31
          = d.drop 31 ++ 0x80 :: List.replicate z 0 := by
        rw [List.drop_append_eq_append_drop, Nat.sub_eq_zero_of_le hd, List.drop_zero]
      have hlen2 : (d.drop 31).length + 1 + z = 31 * n := by
        simp only [List.length_drop]
        omega
      obtain ⟨Q, zs, h1, h2, h3, h4⟩ := enc31_padded_split n (d.drop 31) z hlen2
      refine ⟨d.take 31 ++ 0 :: Q, zs, ?_, h2, ?_, ?_⟩
      · show (d ++ 0x80 :: List.replicate z 0).take 31 ++
          0 :: enc31 n ((d ++ 0x80 :: List.replicate z 0).drop 31) = _
        rw [List.take_append_of_le_length hd, hdrop, h1]
        simp
      · rw [clean_from_append, clean_from_keep_all (d.take 31) 0 ?hkeep]
        case hkeep =>
          intro i hi
          simp only [List.length_take] at hi
          omega
        have htl : (d.take 31).length = 31 := by
          simp only [List.length_take]
          omega
        rw [htl, clean_from, if_pos (by omega),
          clean_from_congr Q 32 0 (by omega), h3, List.take_append_drop]
      · simp only [List.length_append, List.length_cons, List.length_take, h4,
          List.length_drop]
        omega
    · push_neg at hd
      have hz : 30 - d.length ≤ z := by omega
      have htake : (d ++ 0x80 :: List.replicate z 0).take 31
          = d ++ 0x80 :: List.replicate (30 - d.length) 0 := by
        rw [List.take_append_eq_append_take, List.take_of_length_le (by omega)]
        congr 1
        have h31 : 31 - d.length = (30 - d.length) + 1 := by omega
        rw [h31, List.take_succ_cons, List.take_replicate, Nat.min_def, if_pos hz]
      have hdrop : (d ++ 0x80 :: List.replicate z 0).drop 31
          = List.replicate (z - (30 - d.length)) 0 := by
        rw [List.drop_append_eq_append_drop, List.drop_eq_nil_of_le (by omega)]
        have h31 : 31 - d.length = (30 - d.length) + 1 := by omega
        rw [h31, List.drop_succ_cons, List.drop_replicate, List.nil_append]
      refine ⟨d, List.replicate (30 - d.length) 0 ++
        0 :: enc31 n (List.replicate (z - (30 - d.length)) 0), ?_, ?_, ?_, ?_⟩
      · show (d ++ 0x80 :: List.replicate z 0).take 31 ++
          0 :: enc31 n ((d ++ 0x80 :: List.replicate z 0).drop 31) = _
        rw [htake, hdrop]
        simp
      · intro x hx
        simp only [List.mem_append, List.mem_cons] at hx
        rcases hx with h | h | h
        · exact List.eq_of_mem_replicate h
        · exact h
        · exact enc31_zeros n _ x h
      · exact clean_from_keep_all d 0 fun i hi => by omega
      · have : d.length / 31 = 0 := by omega
        omega

theorem U_eq : USEFUL_BYTES_PER_BLOB = 31 * 1016 := rfl

theorem F_eq : FIELD_ELEMENTS_PER_BLOB = 1016 := rfl

theorem MAX_eq : MAX_USEFUL_BYTES_PER_TX = 62991 := rfl

theorem naive_bounds {L : Nat} (hpos : 0 < L) (hmax : L ≤ MAX_USEFUL_BYTES_PER_TX)
    (hne : L ≠ USEFUL_BYTES_PER_BLOB) :
    L < ((L + USEFUL_BYTES_PER_BLOB - 1) / USEFUL_BYTES_PER_BLOB) * USEFUL_BYTES_PER_BLOB := by
  rw [U_eq] at *
  rw [MAX_eq] at hmax
  omega

theorem naive_pack_eq (data : List Nat) (hpos : 0 < data.length)
    (hmax : data.length ≤ MAX_USEFUL_BYTES_PER_TX)
    (hne : data.length ≠ USEFUL_BYTES_PER_BLOB) :
    get_blobs_from_data data = some (.ok
      ((List.range ((data.length + USEFUL_BYTES_PER_BLOB - 1) / USEFUL_BYTES_PER_BLOB)).map
        fun i => get_blob (((data ++ 0x80 :: List.replicate
            (((data.length + USEFUL_BYTES_PER_BLOB - 1) / USEFUL_BYTES_PER_BLOB) *
              USEFUL_BYTES_PER_BLOB - data.length - 1) 0).drop
          (i * USEFUL_BYTES_PER_BLOB)).take USEFUL_BYTES_PER_BLOB))) := by
  have hlt := naive_bounds hpos hmax hne
  rw [get_blobs_from_data, if_neg (by omega), if_neg (by omega), get_padded, if_pos hlt]

theorem flatten_map_get_blob : ∀ (n : Nat) (p : List Nat),
    p.length = n * USEFUL_BYTES_PER_BLOB →
    ((List.range n).map fun i =>
        get_blob ((p.drop (i * USEFUL_BYTES_PER_BLOB)).take USEFUL_BYTES_PER_BLOB)).flatten
      = enc31 (FIELD_ELEMENTS_PER_BLOB * n) p
  | 0, p, _ => by simp [enc31]
  | n + 1, p, hp => by
    have hlen : (p.drop USEFUL_BYTES_PER_BLOB).length = n * USEFUL_BYTES_PER_BLOB := by
      rw [List.length_drop, hp, U_eq]
      omega
    rw [List.range_succ_eq_map, List.map_cons, List.map_map, List.flatten_cons]
    have hcomp : ((fun i =>
          get_blob ((p.drop (i * USEFUL_BYTES_PER_BLOB)).take USEFUL_BYTES_PER_BLOB)) ∘ Nat.succ)
        = fun i => get_blob (((p.drop USEFUL_BYTES_PER_BLOB).drop
            (i * USEFUL_BYTES_PER_BLOB)).take USEFUL_BYTES_PER_BLOB) := by
      funext i
      simp only [Function.comp_apply, List.drop_drop]
      have harith : Nat.succ i * USEFUL_BYTES_PER_BLOB
          = USEFUL_BYTES_PER_BLOB + i * USEFUL_BYTES_PER_BLOB := by
        rw [U_eq]
        omega
      rw [harith]
    rw [hcomp, flatten_map_get_blob n (p.drop USEFUL_BYTES_PER_BLOB) hlen]
    have hsplit := enc31_split FIELD_ELEMENTS_PER_BLOB (FIELD_ELEMENTS_PER_BLOB * n) p
    have hmul : FIELD_ELEMENTS_PER_BLOB + FIELD_ELEMENTS_PER_BLOB * n
        = FIELD_ELEMENTS_PER_BLOB * (n + 1) := by
      rw [F_eq]
      omega
    rw [hmul] at hsplit
    rw [hsplit, Nat.zero_mul, List.drop_zero, get_blob_eq_enc31]
    have h31F : 31 * FIELD_ELEMENTS_PER_BLOB = USEFUL_BYTES_PER_BLOB := rfl
    rw [h31F]
    congr 1
    rw [U_eq, F_eq]
    exact enc31_take 1016 p

theorem naive_unpack_eq (data : List Nat) (hpos : 0 < data.length)
    (hmax : data.length ≤ MAX_USEFUL_BYTES_PER_TX)
    (hne : data.length ≠ USEFUL_BYTES_PER_BLOB) :
    unpack ((List.range ((data.length + USEFUL_BYTES_PER_BLOB - 1) / USEFUL_BYTES_PER_BLOB)).map
        fun i => get_blob (((data ++ 0x80 :: List.replicate
            (((data.length + USEFUL_BYTES_PER_BLOB - 1) / USEFUL_BYTES_PER_BLOB) *
              USEFUL_BYTES_PER_BLOB - data.length - 1) 0).drop
          (i * USEFUL_BYTES_PER_BLOB)).take USEFUL_BYTES_PER_BLOB)) = .ok data := by
  have hlt := naive_bounds hpos hmax hne
  set n := (data.length + USEFUL_BYTES_PER_BLOB - 1) / USEFUL_BYTES_PER_BLOB with hn
  set padded := data ++ 0x80 ::
    List.replicate (n * USEFUL_BYTES_PER_BLOB - data.length - 1) 0 with hpadded
  have hplen : padded.length = n * USEFUL_BYTES_PER_BLOB := by
    rw [hpadded]
    simp only [List.length_append, List.length_cons, List.length_replicate]
    omega
  have hflat := flatten_map_get_blob n padded hplen
  have hz : data.length + 1 + (n * USEFUL_BYTES_PER_BLOB - data.length - 1)
      = 31 * (FIELD_ELEMENTS_PER_BLOB * n) := by
    rw [U_eq] at *
    rw [F_eq]
    omega
  obtain ⟨Q, zs, h1, h2, h3, h4⟩ :=
    enc31_padded_split (FIELD_ELEMENTS_PER_BLOB * n) data
      (n * USEFUL_BYTES_PER_BLOB - data.length - 1) hz
  rw [unpack, hflat]
  rw [← hpadded] at h1
  rw [h1, unpad_marker h2]
  show Except.ok (clean_field_elements Q) = Except.ok data
  rw [show clean_field_elements Q = clean_from 0 Q from rfl, h3]

theorem naive_exact_fit_none (data : List Nat) (hlen : data.length = USEFUL_BYTES_PER_BLOB) :
    get_blobs_from_data data = none := by
  have h0 : ¬ data.length = 0 := by
    rw [hlen, U_eq]
    omega
  have h1 : ¬ MAX_USEFUL_BYTES_PER_TX < data.length := by
    rw [hlen, U_eq, MAX_eq]
    omega
  rw [get_blobs_from_data, if_neg h0, if_neg h1, get_padded, if_neg ?hne]
  case hne =>
    rw [hlen, U_eq]
    omega

theorem enc31_get_reserved : ∀ (k : Nat) (d : List Nat) (i : Nat), i < k → 31 * k ≤ d.length →
    (enc31 k d)[32 * i + 31]? = some 0
  | k + 1, d, 0, _, hd => by
    show (d.take 31 ++ 0 :: enc31 k (d.drop 31))[32 * 0 + 31]? = some 0
    have htl : (d.take 31).length = 31 := by
      rw [List.length_take]
      omega
    rw [List.getElem?_append_right (by omega)]
    rw [htl, show 32 * 0 + 31 - 31 = 0 from by omega]
    exact List.getElem?_cons_zero
  | k + 1, d, i + 1, hi, hd => by
    show (d.take 31 ++ 0 :: enc31 k (d.drop 31))[32 * (i + 1) + 31]? = some 0
    have htl : (d.take 31).length = 31 := by
      rw [List.length_take]
      omega
    rw [List.getElem?_append_right (by omega), htl]
    have hidx : 32 * (i + 1) + 31 - 31 = (32 * i + 31) + 1 := by
      omega
    rw [hidx, List.getElem?_cons_succ]
    exact enc31_get_reserved k (d.drop 31) i (by omega) (by rw [List.length_drop]; omega)

theorem naive_pack_inv {data : List Nat} {blobs : List (List Nat)}
    (h : get_blobs_from_data data = some (.ok blobs)) :
    ∃ n padded, (padded : List Nat).length = n * USEFUL_BYTES_PER_BLOB ∧
      blobs = (List.range n).map fun i =>
        get_blob ((padded.drop (i * USEFUL_BYTES_PER_BLOB)).take USEFUL_BYTES_PER_BLOB) := by
  by_cases h0 : data.length = 0
  · rw [get_blobs_from_data, if_pos h0] at h
    simp at h
  by_cases h1 : MAX_USEFUL_BYTES_PER_TX < data.length
  · rw [get_blobs_from_data, if_neg h0, if_pos h1] at h
    simp at h
  rw [get_blobs_from_data, if_neg h0, if_neg h1] at h
  by_cases hlt : data.length <
      ((data.length + USEFUL_BYTES_PER_BLOB - 1) / USEFUL_BYTES_PER_BLOB) * USEFUL_BYTES_PER_BLOB
  · rw [get_padded, if_pos hlt] at h
    refine ⟨(data.length + USEFUL_BYTES_PER_BLOB - 1) / USEFUL_BYTES_PER_BLOB,
      data ++ 0x80 :: List.replicate
        (((data.length + USEFUL_BYTES_PER_BLOB - 1) / USEFUL_BYTES_PER_BLOB) *
          USEFUL_BYTES_PER_BLOB - data.length - 1) 0, ?_, ?_⟩
    · simp only [List.length_append, List.length_cons, List.length_replicate]
      omega
    · simp only [Option.some.injEq, Except.ok.injEq] at h
      exact h.symm
  · rw [get_padded, if_neg hlt] at h
    simp at h

theorem naive_reserved_bytes {data : List Nat} {blobs : List (List Nat)}
    (h : get_blobs_from_data data = some (.ok blobs)) :
    ∀ blob ∈ blobs, ∀ i, i < FIELD_ELEMENTS_PER_BLOB → blob[32 * i + 31]? = some 0 := by
  obtain ⟨n, padded, hplen, hblobs⟩ := naive_pack_inv h
  subst hblobs
  intro blob hblob i hi
  simp only [List.mem_map, List.mem_range] at hblob
  obtain ⟨j, hj, rfl⟩ := hblob
  rw [get_blob_eq_enc31]
  apply enc31_get_reserved FIELD_ELEMENTS_PER_BLOB _ i hi
  rw [List.length_take, List.length_drop, hplen]
  rw [U_eq, F_eq] at *
  have : 31 * 1016 ≤ n * (31 * 1016) - j * (31 * 1016) := by
    have hj1 : j + 1 ≤ n := hj
    calc 31 * 1016 = (j + 1) * (31 * 1016) - j * (31 * 1016) := by omega
    _ ≤ n * (31 * 1016) - j * (31 * 1016) := by
        have := Nat.mul_le_mul_right (31 * 1016) hj1
        omega
  omega

theorem enc31_length : ∀ (k : Nat) (d : List Nat), 31 * k ≤ d.length →
    (enc31 k d).length = 32 * k
  | 0, _, _ => rfl
  | k + 1, d, hd => by
    show (d.take 31 ++ 0 :: enc31 k (d.drop 31)).length = 32 * (k + 1)
    rw [List.length_append, List.length_cons, List.length_take,
      enc31_length k (d.drop 31) (by rw [List.length_drop]; omega)]
    omega

theorem unpad_set_after_marker {Q zs : List Nat} {p v : Nat}
    (hzs : ∀ x ∈ zs, x = 0) (hQ : Q.length < p) (hp : p < (Q ++ 0x80 :: zs).length)
    (hv0 : v ≠ 0) (hv80 : v ≠ 0x80) :
    unpad ((Q ++ 0x80 :: zs).set p v) = .error .UnpadError := by
  rw [List.set_eq_take_append_cons_drop, if_pos hp]
  have hdrop : ∀ x ∈ (Q ++ 0x80 :: zs).drop (p + 1), x = 0 := by
    intro x hx
    rw [List.drop_append_eq_append_drop,
      @List.drop_eq_nil_of_le _ Q (p + 1) (by omega)] at hx
    rw [List.nil_append] at hx
    have hm : p + 1 - Q.length = (p - Q.length - 1) + 1 + 1 := by omega
    rw [hm, List.drop_succ_cons] at hx
    exact hzs x (List.mem_of_mem_drop hx)
  exact unpad_bad_byte hdrop hv0 hv80

theorem naive_dle_iff (data : List Nat) :
    get_blobs_from_data data = some (.error .DataLengthError) ↔
      data.length = 0 ∨ MAX_USEFUL_BYTES_PER_TX < data.length := by
  constructor
  · intro h
    by_contra hcon
    push_neg at hcon
    obtain ⟨h0, h1⟩ := hcon
    by_cases hne : data.length = USEFUL_BYTES_PER_BLOB
    · rw [naive_exact_fit_none data hne] at h
      simp at h
    · rw [naive_pack_eq data (by omega) (by omega) hne] at h
      simp at h
  · intro h
    rcases h with h | h
    · rw [get_blobs_from_data, if_pos h]
    · rw [get_blobs_from_data, if_neg (by omega), if_pos h]

end packer

theorem chunksOf_nil (k : Nat) : chunksOf k [] = [] := by
  rw [chunksOf]

theorem chunksOf_cons (k : Nat) (b : Nat) (bs : List Nat) :
    chunksOf k (b :: bs) = (b :: bs.take k) :: chunksOf k (bs.drop k) := by
  rw [chunksOf]

theorem chunksOf_append_chunk : ∀ (k : Nat) (a b : List Nat), a.length = k + 1 →
    chunksOf k (a ++ b) = a :: chunksOf k b := by
  intro k a b ha
  match a with
  | [] => simp at ha
  | x :: a =>
    rw [List.cons_append, chunksOf_cons, List.take_append_of_le_length (by simp at ha; omega),
      List.drop_append_eq_append_drop]
    have hal : a.length = k := by simp at ha; omega
    rw [List.take_of_length_le (by omega), List.drop_eq_nil_of_le (by omega),
      Nat.sub_eq_zero_of_le (by omega), List.drop_zero, List.nil_append]

theorem chunksOf_singleton (k : Nat) (a : List Nat) (ha : a.length = k + 1) :
    chunksOf k a = [a] := by
  have := chunksOf_append_chunk k a [] ha
  rw [List.append_nil] at this
  rw [this, chunksOf_nil]

theorem flatten_chunksOf (k : Nat) : ∀ (l : List Nat), (chunksOf k l).flatten = l
  | [] => by rw [chunksOf_nil]; rfl
  | b :: bs => by
    rw [chunksOf_cons, List.flatten_cons, flatten_chunksOf k (bs.drop k)]
    rw [List.cons_append, List.take_append_drop]
termination_by l => l.length
decreasing_by simp only [List.length_drop, List.length_cons]; omega

theorem length_mem_chunksOf (k : Nat) : ∀ (l : List Nat), (k + 1) ∣ l.length →
    ∀ c ∈ chunksOf k l, c.length = k + 1
  | [], _, c, hc => by rw [chunksOf_nil] at hc; simp at hc
  | b :: bs, hdvd, c, hc => by
    rw [chunksOf_cons] at hc
    have hlen : k ≤ bs.length := by
      rcases hdvd with ⟨m, hm⟩
      simp only [List.length_cons] at hm
      rcases m with _ | m
      · omega
      · have : (k + 1) * (m + 1) = (k + 1) * m + (k + 1) := by ring
        omega
    rcases List.mem_cons.mp hc with h | h
    · rw [h]
      simp only [List.length_cons, List.length_take]
      omega
    · apply length_mem_chunksOf k (bs.drop k) ?_ c h
      rcases hdvd with ⟨m, hm⟩
      simp only [List.length_cons] at hm
      refine ⟨m - 1, ?_⟩
      simp only [List.length_drop]
      rcases m with _ | m
      · omega
      · have : (k + 1) * (m + 1) = (k + 1) * m + (k + 1) := by ring
        simp only [Nat.add_sub_cancel]
        omega
termination_by l => l.length
decreasing_by simp only [List.length_drop, List.length_cons]; omega

theorem chunksOf_append_dvd (k : Nat) : ∀ (a b : List Nat), (k + 1) ∣ a.length →
    chunksOf k (a ++ b) = chunksOf k a ++ chunksOf k b
  | [], b, _ => by rw [List.nil_append, chunksOf_nil, List.nil_append]
  | x :: a, b, hdvd => by
    have hlen : k ≤ a.length := by
      rcases hdvd with ⟨m, hm⟩
      simp only [List.length_cons] at hm
      rcases m with _ | m
      · omega
      · have : (k + 1) * (m + 1) = (k + 1) * m + (k + 1) := by ring
        omega
    have hdvd2 : (k + 1) ∣ (a.drop k).length := by
      rcases hdvd with ⟨m, hm⟩
      simp only [List.length_cons] at hm
      refine ⟨m - 1, ?_⟩
      simp only [List.length_drop]
      rcases m with _ | m
      · omega
      · simp only [Nat.add_sub_cancel]
        have : (k + 1) * (m + 1) = (k + 1) * m + (k + 1) := by ring
        omega
    have h1 : (x :: a) ++ b = (x :: a.take k) ++ (a.drop k ++ b) := by
      rw [List.cons_append, List.cons_append, ← List.append_assoc, List.take_append_drop]
    rw [h1, chunksOf_append_chunk k _ _
        (by simp only [List.length_cons, List.length_take]; omega),
      chunksOf_cons, chunksOf_append_dvd k (a.drop k) b hdvd2, List.cons_append]
termination_by a => a.length
decreasing_by simp only [List.length_drop, List.length_cons]; omega

theorem length_chunksOf_mul (k : Nat) : ∀ (m : Nat) (l : List Nat), l.length = m * (k + 1) →
    (chunksOf k l).length = m
  | 0, l, h => by
    rw [Nat.zero_mul] at h
    rw [List.length_eq_zero.mp h, chunksOf_nil]
    rfl
  | m + 1, l, h => by
    match l with
    | [] =>
      exfalso
      have hpos : 0 < (m + 1) * (k + 1) := Nat.mul_pos (by omega) (by omega)
      simp only [List.length_nil] at h
      omega
    | b :: bs =>
      rw [chunksOf_cons, List.length_cons,
        length_chunksOf_mul k m (bs.drop k) ?_]
      have hmul : (m + 1) * (k + 1) = m * (k + 1) + (k + 1) := by ring
      simp only [List.length_cons] at h
      simp only [List.length_drop]
      omega

theorem flatten_range_chunks : ∀ (n : Nat) (C : Nat) (p : List Nat), p.length = n * C →
    ((List.range n).map fun i => (p.drop (i * C)).take C).flatten = p
  | 0, C, p, hp => by
    rw [Nat.zero_mul] at hp
    rw [List.range_zero, List.map_nil, List.length_eq_zero.mp hp]
    rfl
  | n + 1, C, p, hp => by
    rw [List.range_succ_eq_map, List.map_cons, List.map_map, List.flatten_cons,
      Nat.zero_mul, List.drop_zero]
    have hcomp : ((fun i => (p.drop (i * C)).take C) ∘ Nat.succ)
        = fun i => ((p.drop C).drop (i * C)).take C := by
      funext i
      simp only [Function.comp_apply, List.drop_drop]
      rw [Nat.succ_mul, Nat.add_comm]
    have hlen : (p.drop C).length = n * C := by
      have hmul : (n + 1) * C = n * C + C := by ring
      simp only [List.length_drop, hp]
      omega
    rw [hcomp, flatten_range_chunks n C (p.drop C) hlen]
    exact List.take_append_drop C p

theorem flatten_map_flatten_eq (g : List Nat → List Nat) : ∀ (L : List (List (List Nat))),
    (L.map fun chs => (chs.map g).flatten).flatten = ((L.flatten).map g).flatten
  | [] => rfl
  | chs :: L => by
    rw [List.map_cons, List.flatten_cons, List.flatten_cons, List.map_append,
      List.flatten_append, flatten_map_flatten_eq g L]

theorem flatten_map_flatten : ∀ (L : List (List (List Nat))),
    (L.map List.flatten).flatten = L.flatten.flatten
  | [] => rfl
  | chs :: L => by
    rw [List.map_cons, List.flatten_cons, List.flatten_cons, List.flatten_append,
      flatten_map_flatten L]

namespace packer_tight

theorem tight_unpadRev_zeros_append {zs rest : List Nat} (hzs : ∀ z ∈ zs, z = 0) :
    unpadRev (zs ++ rest) = unpadRev rest := by
  induction zs with
  | nil => rfl
  | cons z zs ih =>
    have hz : z = 0 := hzs z (by simp)
    subst hz
    simpa [unpadRev] using ih fun z hz => hzs z (by simp [hz])

theorem tight_unpad_marker {xs zs : List Nat} (hzs : ∀ z ∈ zs, z = 0) :
    unpad (xs ++ 0x80 :: zs) = .ok xs := by
  have : (xs ++ 0x80 :: zs).reverse = zs.reverse ++ 0x80 :: xs.reverse := by
    simp
  rw [unpad, this, tight_unpadRev_zeros_append (by simpa using hzs)]
  simp [unpadRev]

theorem tight_unpad_bad_byte {xs zs : List Nat} {y : Nat} (hzs : ∀ z ∈ zs, z = 0)
    (hy0 : y ≠ 0) (hy80 : y ≠ 0x80) :
    unpad (xs ++ y :: zs) = .error .UnpadError := by
  have : (xs ++ y :: zs).reverse = zs.reverse ++ y :: xs.reverse := by
    simp
  rw [unpad, this, tight_unpadRev_zeros_append (by simpa using hzs)]
  simp [unpadRev, hy0, hy80]

theorem tight_unpad_all_zero {zs : List Nat} (hzs : ∀ z ∈ zs, z = 0) :
    unpad zs = .error .UnpadError := by
  rw [unpad, show zs.reverse = zs.reverse ++ [] by simp,
    tight_unpadRev_zeros_append (by simpa using hzs)]
  rfl

theorem tight_unpad_set_after_marker {Q zs : List Nat} {p v : Nat}
    (hzs : ∀ x ∈ zs, x = 0) (hQ : Q.length < p) (hp : p < (Q ++ 0x80 :: zs).length)
    (hv0 : v ≠ 0) (hv80 : v ≠ 0x80) :
    unpad ((Q ++ 0x80 :: zs).set p v) = .error .UnpadError := by
  rw [List.set_eq_take_append_cons_drop, if_pos hp]
  have hdrop : ∀ x ∈ (Q ++ 0x80 :: zs).drop (p + 1), x = 0 := by
    intro x hx
    rw [List.drop_append_eq_append_drop,
      @List.drop_eq_nil_of_le _ Q (p + 1) (by omega)] at hx
    rw [List.nil_append] at hx
    have hm : p + 1 - Q.length = (p - Q.length - 1) + 1 + 1 := by omega
    rw [hm, List.drop_succ_cons] at hx
    exact hzs x (List.mem_of_mem_drop hx)
  exact tight_unpad_bad_byte hdrop hv0 hv80

theorem byteToBits_length (b : Nat) : (byteToBits b).length = 8 := rfl

theorem bytesToBits_nil : bytesToBits [] = [] := rfl

theorem bytesToBits_cons (b : Nat) (l : List Nat) :
    bytesToBits (b :: l) = byteToBits b ++ bytesToBits l := rfl

theorem bytesToBits_append (a b : List Nat) :
    bytesToBits (a ++ b) = bytesToBits a ++ bytesToBits b := by
  rw [bytesToBits, bytesToBits, bytesToBits, List.map_append, List.flatten_append]

theorem bytesToBits_flatten : ∀ (L : List (List Nat)),
    bytesToBits L.flatten = (L.map bytesToBits).flatten
  | [] => rfl
  | l :: L => by
    rw [List.flatten_cons, bytesToBits_append, List.map_cons, List.flatten_cons,
      bytesToBits_flatten L]

theorem bytesToBits_length (l : List Nat) : (bytesToBits l).length = 8 * l.length := by
  induction l with
  | nil => rfl
  | cons b l ih =>
    rw [bytesToBits_cons, List.length_append, byteToBits_length, ih, List.length_cons]
    omega

theorem bits_le_one {l : List Nat} : ∀ x ∈ bytesToBits l, x ≤ 1 := by
  intro x hx
  rw [bytesToBits, List.mem_flatten] at hx
  obtain ⟨bl, hbl, hxbl⟩ := hx
  rw [List.mem_map] at hbl
  obtain ⟨b, _, rfl⟩ := hbl
  simp only [byteToBits, List.mem_cons, List.not_mem_nil, or_false] at hxbl
  rcases hxbl with h | h | h | h | h | h | h | h <;> subst h <;> omega

theorem bitsToByte_byteToBits {b : Nat} (hb : b < 256) : bitsToByte (byteToBits b) = b := by
  simp only [bitsToByte, byteToBits, List.length_cons, List.length_nil]
  norm_num [List.foldl]
  omega

theorem byteToBits_bitsToByte : ∀ (t : List Nat), t.length = 8 → (∀ x ∈ t, x ≤ 1) →
    byteToBits (bitsToByte t) = t := by
  intro t h8 hle
  rcases t with _ | ⟨x0, t⟩
  · simp at h8
  rcases t with _ | ⟨x1, t⟩
  · simp at h8
  rcases t with _ | ⟨x2, t⟩
  · simp at h8
  rcases t with _ | ⟨x3, t⟩
  · simp at h8
  rcases t with _ | ⟨x4, t⟩
  · simp at h8
  rcases t with _ | ⟨x5, t⟩
  · simp at h8
  rcases t with _ | ⟨x6, t⟩
  · simp at h8
  rcases t with _ | ⟨x7, t⟩
  · simp at h8
  rcases t with _ | ⟨x8, t⟩
  case cons.cons =>
    simp only [List.length_cons] at h8
    omega
  have h0 : x0 ≤ 1 := hle x0 (by simp)
  have h1 : x1 ≤ 1 := hle x1 (by simp)
  have h2 : x2 ≤ 1 := hle x2 (by simp)
  have h3 : x3 ≤ 1 := hle x3 (by simp)
  have h4 : x4 ≤ 1 := hle x4 (by simp)
  have h5 : x5 ≤ 1 := hle x5 (by simp)
  have h6 : x6 ≤ 1 := hle x6 (by simp)
  have h7 : x7 ≤ 1 := hle x7 (by simp)
  simp only [bitsToByte, byteToBits, List.length_cons, List.length_nil]
  norm_num [List.foldl]
  omega

theorem bitsToBytes_nil : bitsToBytes [] = [] := by
  rw [bitsToBytes, chunksOf_nil]
  rfl

theorem bitsToBytes_append8 {a : List Nat} (b : List Nat) (hdvd : 8 ∣ a.length) :
    bitsToBytes (a ++ b) = bitsToBytes a ++ bitsToBytes b := by
  rw [bitsToBytes, bitsToBytes, bitsToBytes, chunksOf_append_dvd 7 a b hdvd, List.map_append]

theorem bitsToBytes_single {t : List Nat} (h8 : t.length = 8) :
    bitsToBytes t = [bitsToByte t] := by
  rw [bitsToBytes, chunksOf_singleton 7 t h8]
  rfl

theorem bitsToBytes_length_of (x : List Nat) (m : Nat) (h : x.length = m * 8) :
    (bitsToBytes x).length = m := by
  rw [bitsToBytes, List.length_map]
  exact length_chunksOf_mul 7 m x h

theorem bytesToBits_bitsToBytes : ∀ (bs : List Nat), (∀ x ∈ bs, x ≤ 1) → 8 ∣ bs.length →
    bytesToBits (bitsToBytes bs) = bs
  | [], _, _ => by rw [bitsToBytes_nil]; rfl
  | b :: bs, hle, hdvd => by
    have hlen : 7 ≤ bs.length := by
      rcases hdvd with ⟨m, hm⟩
      simp only [List.length_cons] at hm
      rcases m with _ | m
      · omega
      · have : 8 * (m + 1) = 8 * m + 8 := by ring
        omega
    have htake : ((b :: bs).take 8).length = 8 := by
      rw [List.length_take]
      simp only [List.length_cons]
      omega
    have hsplit : b :: bs = ((b :: bs).take 8) ++ ((b :: bs).drop 8) :=
      (List.take_append_drop 8 (b :: bs)).symm
    have hdrop : (b :: bs).drop 8 = bs.drop 7 := rfl
    conv_lhs => rw [hsplit]
    rw [bitsToBytes_append8 _ (by rw [htake]), bitsToBytes_single htake,
      List.singleton_append, bytesToBits_cons,
      byteToBits_bitsToByte _ htake (fun x hx => hle x (List.mem_of_mem_take hx))]
    rw [hdrop, bytesToBits_bitsToBytes (bs.drop 7)
      (fun x hx => hle x (List.mem_cons_of_mem b (List.mem_of_mem_drop hx))) ?_]
    · conv_rhs => rw [hsplit]
      rw [hdrop]
    · rcases hdvd with ⟨m, hm⟩
      refine ⟨m - 1, ?_⟩
      simp only [List.length_cons] at hm
      simp only [List.length_drop]
      rcases m with _ | m
      · omega
      · have : 8 * (m + 1) = 8 * m + 8 := by ring
        omega
termination_by bs => bs.length

theorem bitsToBytes_bytesToBits : ∀ (l : List Nat), (∀ b ∈ l, b < 256) →
    bitsToBytes (bytesToBits l) = l
  | [], _ => by rw [bytesToBits_nil, bitsToBytes_nil]
  | b :: l, hb => by
    rw [bytesToBits_cons, bitsToBytes_append8 _ (by rw [byteToBits_length]),
      bitsToBytes_single (byteToBits_length b),
      bitsToByte_byteToBits (hb b (by simp)),
      bitsToBytes_bytesToBits l (fun x hx => hb x (List.mem_cons_of_mem b hx))]
    rfl

theorem cleanBits_from_nil (k : Nat) : cleanBits_from k [] = [] := rfl

theorem cleanBits_from_cons (k b : Nat) (rest : List Nat) :
    cleanBits_from k (b :: rest) =
      if k % 256 < 254 then b :: cleanBits_from (k + 1) rest
      else cleanBits_from (k + 1) rest := rfl

theorem cleanBits_from_keep : ∀ (c : List Nat) (k : Nat) (rest : List Nat),
    (∀ i, i < c.length → (k + i) % 256 < 254) →
    cleanBits_from k (c ++ rest) = c ++ cleanBits_from (k + c.length) rest
  | [], k, rest, _ => by simp
  | x :: c, k, rest, h => by
    rw [List.cons_append, cleanBits_from_cons, if_pos ?hx]
    case hx =>
      have := h 0 (by simp)
      omega
    rw [cleanBits_from_keep c (k + 1) rest ?hr]
    case hr =>
      intro i hi
      have := h (i + 1) (by simp only [List.length_cons]; omega)
      omega
    have harith : k + 1 + c.length = k + (x :: c).length := by
      simp only [List.length_cons]
      omega
    rw [harith, List.cons_append]

theorem cleanBits_chunks : ∀ (chs : List (List Nat)) (k : Nat), k % 256 = 0 →
    (∀ c ∈ chs, c.length = 254) →
    cleanBits_from k ((chs.map fun c => c ++ [0, 0]).flatten) = chs.flatten
  | [], _, _, _ => rfl
  | c :: chs, k, hk, hlen => by
    have hc : c.length = 254 := hlen c (by simp)
    rw [List.map_cons, List.flatten_cons, List.append_assoc,
      cleanBits_from_keep c k _ (fun i hi => by omega), hc]
    rw [List.cons_append, List.singleton_append, cleanBits_from_cons, if_neg (by omega),
      cleanBits_from_cons, if_neg (by omega)]
    have harith : k + 254 + 1 + 1 = k + 256 := by omega
    rw [harith, cleanBits_chunks chs (k + 256) (by omega)
      (fun d hd => hlen d (List.mem_cons_of_mem c hd))]
    rw [List.flatten_cons]

theorem TU_eq : USEFUL_BYTES_PER_TIGHT_BLOB = 130048 := rfl

theorem TMAX_eq : MAX_TIGHT_USEFUL_BYTES_PER_TX = 260095 := rfl

theorem TF_eq : FIELD_ELEMENTS_PER_BLOB = 4096 := rfl

theorem bytesToBits_get_packed_blob (c : List Nat) (hc : c.length = USEFUL_BYTES_PER_TIGHT_BLOB) :
    bytesToBits (get_packed_blob c)
      = ((chunksOf 253 (bytesToBits c)).map fun ch => ch ++ [0, 0]).flatten := by
  have hbits : (bytesToBits c).length = 1040384 := by
    rw [bytesToBits_length, hc, TU_eq]
  have hdvd : (253 + 1) ∣ (bytesToBits c).length := by
    rw [hbits]
    exact ⟨4096, by norm_num⟩
  have hchlen : ∀ ch ∈ chunksOf 253 (bytesToBits c), ch.length = 254 :=
    length_mem_chunksOf 253 (bytesToBits c) hdvd
  have hcount : (chunksOf 253 (bytesToBits c)).length = 4096 :=
    length_chunksOf_mul 253 4096 (bytesToBits c) (by rw [hbits])
  simp only [get_packed_blob]
  rw [List.length_map, hcount,
    show BLOB_SIZE - BYTES_PER_FIELD_ELEMENT * 4096 = 0 from rfl,
    List.replicate_zero, List.append_nil, bytesToBits_flatten, List.map_map]
  congr 1
  apply List.map_congr_left
  intro ch hch
  have h254 := hchlen ch hch
  simp only [Function.comp_apply]
  have hrep : BYTES_PER_FIELD_ELEMENT * 8 - ch.length = 2 := by
    rw [h254]
    rfl
  rw [hrep, show (List.replicate 2 0 : List Nat) = [0, 0] from rfl]
  apply bytesToBits_bitsToBytes
  · intro x hx
    rcases List.mem_append.mp hx with h | h
    · exact bits_le_one x (by
        rw [← flatten_chunksOf 253 (bytesToBits c)]
        exact List.mem_flatten_of_mem hch h)
    · simp only [List.mem_cons, List.not_mem_nil, or_false] at h
      rcases h with h | h <;> omega
  · refine ⟨32, ?_⟩
    rw [List.length_append, h254]
    rfl

theorem clean_tight_of_chunks (cs : List (List Nat))
    (hlen : ∀ c ∈ cs, c.length = USEFUL_BYTES_PER_TIGHT_BLOB)
    (hbyte : ∀ c ∈ cs, ∀ b ∈ c, b < 256) :
    clean_field_elements_tight ((cs.map get_packed_blob).flatten) = cs.flatten := by
  rw [clean_field_elements_tight, bytesToBits_flatten, List.map_map]
  have hmap : cs.map (bytesToBits ∘ get_packed_blob)
      = cs.map fun c => ((chunksOf 253 (bytesToBits c)).map fun ch => ch ++ [0, 0]).flatten :=
    List.map_congr_left fun c hc => bytesToBits_get_packed_blob c (hlen c hc)
  rw [hmap]
  have hL : (cs.map fun c => ((chunksOf 253 (bytesToBits c)).map fun ch => ch ++ [0, 0]).flatten)
      = ((cs.map fun c => chunksOf 253 (bytesToBits c)).map
          fun chs => (chs.map fun ch => ch ++ [0, 0]).flatten) := by
    rw [List.map_map]
    rfl
  rw [hL, flatten_map_flatten_eq]
  rw [cleanBits_chunks _ 0 (by omega) ?hall]
  case hall =>
    intro ch hch
    rw [List.mem_flatten] at hch
    obtain ⟨chs, hchs, hmem⟩ := hch
    rw [List.mem_map] at hchs
    obtain ⟨c, hc, rfl⟩ := hchs
    apply length_mem_chunksOf 253 (bytesToBits c) ?_ ch hmem
    rw [bytesToBits_length, hlen c hc, TU_eq]
    exact ⟨4096, by norm_num⟩
  rw [← flatten_map_flatten, List.map_map]
  have hfl : cs.map (List.flatten ∘ fun c => chunksOf 253 (bytesToBits c))
      = cs.map bytesToBits :=
    List.map_congr_left fun c _ => flatten_chunksOf 253 (bytesToBits c)
  rw [hfl, ← bytesToBits_flatten, bitsToBytes_bytesToBits]
  intro b hb
  rw [List.mem_flatten] at hb
  obtain ⟨c, hc, hbc⟩ := hb
  exact hbyte c hc b hbc

theorem flatten_uniform_drop_take : ∀ (P : List (List Nat)) (m : Nat), 0 < m →
    (∀ p ∈ P, p.length = m) → ∀ i, i < P.length →
    ((P.flatten.drop (m * i)).take m) = P.getD i []
  | [], _, _, _, i, hi => by simp at hi
  | p :: P, m, hm, hlen, 0, _ => by
    have hp := hlen p (by simp)
    rw [List.flatten_cons, Nat.mul_zero, List.drop_zero, List.getD_cons_zero,
      List.take_append_of_le_length (by omega), ← hp, List.take_length]
  | p :: P, m, hm, hlen, i + 1, hi => by
    rw [List.flatten_cons, List.getD_cons_succ]
    have hp := hlen p (by simp)
    have harith : m * (i + 1) = p.length + m * i := by
      rw [hp]
      ring
    rw [harith, List.drop_append]
    exact flatten_uniform_drop_take P m hm (fun q hq => hlen q (by simp [hq])) i
      (by simp only [List.length_cons] at hi; omega)

theorem map_getD (f : List Nat → List Nat) : ∀ (l : List (List Nat)) (i : Nat), i < l.length →
    (l.map f).getD i [] = f (l.getD i [])
  | [], i, hi => by simp at hi
  | p :: l, 0, _ => by
    rw [List.map_cons, List.getD_cons_zero, List.getD_cons_zero]
  | p :: l, i + 1, hi => by
    rw [List.map_cons, List.getD_cons_succ, List.getD_cons_succ]
    exact map_getD f l i (by simp only [List.length_cons] at hi; omega)

theorem chunksOf_getD : ∀ (k : Nat) (l : List Nat) (i : Nat), i < (chunksOf k l).length →
    (chunksOf k l).getD i [] = (l.drop ((k + 1) * i)).take (k + 1)
  | k, [], i, hi => by
    rw [chunksOf_nil] at hi
    simp at hi
  | k, b :: bs, 0, _ => by
    rw [chunksOf_cons, List.getD_cons_zero, Nat.mul_zero, List.drop_zero]
    rfl
  | k, b :: bs, i + 1, hi => by
    rw [chunksOf_cons, List.getD_cons_succ,
      chunksOf_getD k (bs.drop k) i
        (by rw [chunksOf_cons] at hi; simp only [List.length_cons] at hi; omega),
      List.drop_drop]
    have harith : (k + 1) * (i + 1) = (k + (k + 1) * i) + 1 := by ring
    rw [harith, List.drop_succ_cons]
termination_by _ l => l.length
decreasing_by simp only [List.length_drop, List.length_cons]; omega

theorem bitsToByte_pad2_mod4 (l : List Nat) (hl : l.length = 6) :
    bitsToByte (l ++ [0, 0]) % 4 = 0 := by
  rw [bitsToByte]
  have h8 : (l ++ [0, 0]).length = 8 := by
    simp only [List.length_append, hl]
    rfl
  rw [h8, Nat.sub_self, List.replicate_zero, List.append_nil, List.foldl_append]
  simp only [List.foldl]
  omega

theorem tight_bounds {L : Nat} (hpos : 0 < L) (hmax : L ≤ MAX_TIGHT_USEFUL_BYTES_PER_TX)
    (hne : L ≠ USEFUL_BYTES_PER_TIGHT_BLOB) :
    L < ((L + USEFUL_BYTES_PER_TIGHT_BLOB - 1) / USEFUL_BYTES_PER_TIGHT_BLOB) *
      USEFUL_BYTES_PER_TIGHT_BLOB := by
  rw [TU_eq] at *
  rw [TMAX_eq] at hmax
  omega

theorem tight_pack_eq (data : List Nat) (hpos : 0 < data.length)
    (hmax : data.length ≤ MAX_TIGHT_USEFUL_BYTES_PER_TX)
    (hne : data.length ≠ USEFUL_BYTES_PER_TIGHT_BLOB) :
    get_blobs_from_data data = some (.ok
      ((List.range
          ((data.length + USEFUL_BYTES_PER_TIGHT_BLOB - 1) / USEFUL_BYTES_PER_TIGHT_BLOB)).map
        fun i => get_packed_blob (((data ++ 0x80 :: List.replicate
            (((data.length + USEFUL_BYTES_PER_TIGHT_BLOB - 1) / USEFUL_BYTES_PER_TIGHT_BLOB) *
              USEFUL_BYTES_PER_TIGHT_BLOB - data.length - 1) 0).drop
          (i * USEFUL_BYTES_PER_TIGHT_BLOB)).take USEFUL_BYTES_PER_TIGHT_BLOB))) := by
  have hlt := tight_bounds hpos hmax hne
  rw [get_blobs_from_data, if_neg (by omega), if_neg (by omega), get_padded_tight, if_pos hlt]

theorem tight_exact_fit_none (data : List Nat)
    (hlen : data.length = USEFUL_BYTES_PER_TIGHT_BLOB) :
    get_blobs_from_data data = none := by
  have h0 : ¬ data.length = 0 := by
    rw [hlen, TU_eq]
    omega
  have h1 : ¬ MAX_TIGHT_USEFUL_BYTES_PER_TX < data.length := by
    rw [hlen, TU_eq, TMAX_eq]
    omega
  rw [get_blobs_from_data, if_neg h0, if_neg h1, get_padded_tight, if_neg ?hne]
  case hne =>
    rw [hlen, TU_eq]
    omega

theorem tight_pack_inv {data : List Nat} {blobs : List (List Nat)}
    (h : get_blobs_from_data data = some (.ok blobs)) :
    ∃ n padded, (padded : List Nat).length = n * USEFUL_BYTES_PER_TIGHT_BLOB ∧
      blobs = (List.range n).map fun i =>
        get_packed_blob ((padded.drop (i * USEFUL_BYTES_PER_TIGHT_BLOB)).take
          USEFUL_BYTES_PER_TIGHT_BLOB) := by
  by_cases h0 : data.length = 0
  · rw [get_blobs_from_data, if_pos h0] at h
    simp at h
  by_cases h1 : MAX_TIGHT_USEFUL_BYTES_PER_TX < data.length
  · rw [get_blobs_from_data, if_neg h0, if_pos h1] at h
    simp at h
  rw [get_blobs_from_data, if_neg h0, if_neg h1] at h
  by_cases hlt : data.length <
      ((data.length + USEFUL_BYTES_PER_TIGHT_BLOB - 1) / USEFUL_BYTES_PER_TIGHT_BLOB) *
        USEFUL_BYTES_PER_TIGHT_BLOB
  · rw [get_padded_tight, if_pos hlt] at h
    refine ⟨(data.length + USEFUL_BYTES_PER_TIGHT_BLOB - 1) / USEFUL_BYTES_PER_TIGHT_BLOB,
      data ++ 0x80 :: List.replicate
        (((data.length + USEFUL_BYTES_PER_TIGHT_BLOB - 1) / USEFUL_BYTES_PER_TIGHT_BLOB) *
          USEFUL_BYTES_PER_TIGHT_BLOB - data.length - 1) 0, ?_, ?_⟩
    · simp only [List.length_append, List.length_cons, List.length_replicate]
      omega
    · simp only [Option.some.injEq, Except.ok.injEq] at h
      exact h.symm
  · rw [get_padded_tight, if_neg hlt] at h
    simp at h

theorem tight_dle_iff (data : List Nat) :
    get_blobs_from_data data = some (.error .DataLengthError) ↔
      data.length = 0 ∨ MAX_TIGHT_USEFUL_BYTES_PER_TX < data.length := by
  constructor
  · intro h
    by_contra hcon
    push_neg at hcon
    obtain ⟨h0, h1⟩ := hcon
    by_cases hne : data.length = USEFUL_BYTES_PER_TIGHT_BLOB
    · rw [tight_exact_fit_none data hne] at h
      simp at h
    · rw [tight_pack_eq data (by omega) (by omega) hne] at h
      simp at h
  · intro h
    rcases h with h | h
    · rw [get_blobs_from_data, if_pos h]
    · rw [get_blobs_from_data, if_neg (by omega), if_pos h]

theorem tight_chunk_facts (data : List Nat) (hpos : 0 < data.length)
    (hmax : data.length ≤ MAX_TIGHT_USEFUL_BYTES_PER_TX)
    (hne : data.length ≠ USEFUL_BYTES_PER_TIGHT_BLOB) (hbytes : ∀ b ∈ data, b < 256) :
    ∀ c ∈ (List.range
        ((data.length + USEFUL_BYTES_PER_TIGHT_BLOB - 1) / USEFUL_BYTES_PER_TIGHT_BLOB)).map
      (fun i => (((data ++ 0x80 :: List.replicate
          (((data.length + USEFUL_BYTES_PER_TIGHT_BLOB - 1) / USEFUL_BYTES_PER_TIGHT_BLOB) *
            USEFUL_BYTES_PER_TIGHT_BLOB - data.length - 1) 0).drop
        (i * USEFUL_BYTES_PER_TIGHT_BLOB)).take USEFUL_BYTES_PER_TIGHT_BLOB)),
      c.length = USEFUL_BYTES_PER_TIGHT_BLOB ∧ ∀ b ∈ c, b < 256 := by
  have hlt := tight_bounds hpos hmax hne
  intro c hc
  rw [List.mem_map] at hc
  obtain ⟨i, hi, rfl⟩ := hc
  rw [List.mem_range] at hi
  constructor
  · rw [List.length_take, List.length_drop]
    simp only [List.length_append, List.length_cons, List.length_replicate]
    rw [TU_eq] at *
    have hin : i + 1 ≤ (data.length + 130048 - 1) / 130048 := hi
    have := Nat.mul_le_mul_right 130048 hin
    omega
  · intro b hb
    have hmem := List.mem_of_mem_drop (List.mem_of_mem_take hb)
    rcases List.mem_append.mp hmem with h | h
    · exact hbytes b h
    · rcases List.mem_cons.mp h with h | h
      · omega
      · have := List.eq_of_mem_replicate h
        omega

theorem tight_unpack_eq (data : List Nat) (hpos : 0 < data.length)
    (hmax : data.length ≤ MAX_TIGHT_USEFUL_BYTES_PER_TX)
    (hne : data.length ≠ USEFUL_BYTES_PER_TIGHT_BLOB) (hbytes : ∀ b ∈ data, b < 256) :
    unpack ((List.range
        ((data.length + USEFUL_BYTES_PER_TIGHT_BLOB - 1) / USEFUL_BYTES_PER_TIGHT_BLOB)).map
      fun i => get_packed_blob (((data ++ 0x80 :: List.replicate
          (((data.length + USEFUL_BYTES_PER_TIGHT_BLOB - 1) / USEFUL_BYTES_PER_TIGHT_BLOB) *
            USEFUL_BYTES_PER_TIGHT_BLOB - data.length - 1) 0).drop
        (i * USEFUL_BYTES_PER_TIGHT_BLOB)).take USEFUL_BYTES_PER_TIGHT_BLOB)) = .ok data := by
  have hlt := tight_bounds hpos hmax hne
  set n := (data.length + USEFUL_BYTES_PER_TIGHT_BLOB - 1) / USEFUL_BYTES_PER_TIGHT_BLOB with hn
  set padded := data ++ 0x80 ::
    List.replicate (n * USEFUL_BYTES_PER_TIGHT_BLOB - data.length - 1) 0 with hpadded
  have hplen : padded.length = n * USEFUL_BYTES_PER_TIGHT_BLOB := by
    rw [hpadded]
    simp only [List.length_append, List.length_cons, List.length_replicate]
    omega
  set cs := (List.range n).map
    (fun i => ((padded.drop (i * USEFUL_BYTES_PER_TIGHT_BLOB)).take
      USEFUL_BYTES_PER_TIGHT_BLOB)) with hcs
  have hfacts := tight_chunk_facts data hpos hmax hne hbytes
  rw [← hn, ← hpadded, ← hcs] at hfacts
  have hblobs : ((List.range n).map
      fun i => get_packed_blob ((padded.drop (i * USEFUL_BYTES_PER_TIGHT_BLOB)).take
        USEFUL_BYTES_PER_TIGHT_BLOB)) = cs.map get_packed_blob := by
    rw [hcs, List.map_map]
    rfl
  rw [unpack, hblobs,
    clean_tight_of_chunks cs (fun c hc => (hfacts c hc).1) (fun c hc => (hfacts c hc).2)]
  rw [hcs, flatten_range_chunks n USEFUL_BYTES_PER_TIGHT_BLOB padded hplen, hpadded]
  apply tight_unpad_marker
  intro z hz
  exact List.eq_of_mem_replicate hz

theorem get_packed_blob_flatten (c : List Nat) (hc : c.length = USEFUL_BYTES_PER_TIGHT_BLOB) :
    get_packed_blob c = ((chunksOf 253 (bytesToBits c)).map
      fun ch => bitsToBytes (ch ++ List.replicate (BYTES_PER_FIELD_ELEMENT * 8 - ch.length) 0)).flatten := by
  have hbits : (bytesToBits c).length = 1040384 := by
    rw [bytesToBits_length, hc, TU_eq]
  have hcount : (chunksOf 253 (bytesToBits c)).length = 4096 :=
    length_chunksOf_mul 253 4096 (bytesToBits c) (by rw [hbits])
  simp only [get_packed_blob]
  rw [List.length_map, hcount,
    show BLOB_SIZE - BYTES_PER_FIELD_ELEMENT * 4096 = 0 from rfl,
    List.replicate_zero, List.append_nil]

theorem tight_element (c : List Nat) (hc : c.length = USEFUL_BYTES_PER_TIGHT_BLOB)
    (i : Nat) (hi : i < FIELD_ELEMENTS_PER_BLOB) :
    bytesToBits (((get_packed_blob c).drop (32 * i)).take 32)
      = ((bytesToBits c).drop (254 * i)).take 254 ++ [0, 0] := by
  have hbits : (bytesToBits c).length = 1040384 := by
    rw [bytesToBits_length, hc, TU_eq]
  have hdvd : (253 + 1) ∣ (bytesToBits c).length := by
    rw [hbits]
    exact ⟨4096, by norm_num⟩
  have hchlen : ∀ ch ∈ chunksOf 253 (bytesToBits c), ch.length = 254 :=
    length_mem_chunksOf 253 (bytesToBits c) hdvd
  have hcount : (chunksOf 253 (bytesToBits c)).length = 4096 :=
    length_chunksOf_mul 253 4096 (bytesToBits c) (by rw [hbits])
  rw [TF_eq] at hi
  rw [get_packed_blob_flatten c hc]
  have hpiece : ∀ p ∈ (chunksOf 253 (bytesToBits c)).map
      (fun ch => bitsToBytes (ch ++ List.replicate (BYTES_PER_FIELD_ELEMENT * 8 - ch.length) 0)),
      p.length = 32 := by
    intro p hp
    rw [List.mem_map] at hp
    obtain ⟨ch, hch, rfl⟩ := hp
    apply bitsToBytes_length_of _ 32
    rw [List.length_append, List.length_replicate, hchlen ch hch]
    rfl
  rw [flatten_uniform_drop_take _ 32 (by omega) hpiece i
      (by rw [List.length_map, hcount]; exact hi),
    map_getD _ _ i (by rw [hcount]; exact hi),
    chunksOf_getD 253 (bytesToBits c) i (by rw [hcount]; exact hi),
    show (253 : Nat) + 1 = 254 from rfl]
  have hchlen2 : (((bytesToBits c).drop (254 * i)).take 254).length = 254 := by
    rw [List.length_take, List.length_drop, hbits]
    omega
  have hrep : BYTES_PER_FIELD_ELEMENT * 8 - (((bytesToBits c).drop (254 * i)).take 254).length
      = 2 := by
    rw [hchlen2]
    rfl
  rw [hrep, show (List.replicate 2 0 : List Nat) = [0, 0] from rfl]
  apply bytesToBits_bitsToBytes
  · intro x hx
    rcases List.mem_append.mp hx with h | h
    · exact bits_le_one x (List.mem_of_mem_drop (List.mem_of_mem_take h))
    · simp only [List.mem_cons, List.not_mem_nil, or_false] at h
      rcases h with h | h <;> omega
  · refine ⟨32, ?_⟩
    rw [List.length_append, hchlen2]
    rfl

theorem chunk_take_drop_length (p : List Nat) (n U i : Nat) (hp : p.length = n * U)
    (hi : i < n) : ((p.drop (i * U)).take U).length = U := by
  rw [List.length_take, List.length_drop, hp]
  have h1 : (i + 1) * U ≤ n * U := Nat.mul_le_mul_right U (by omega)
  have h2 : (i + 1) * U = i * U + U := by ring
  omega

theorem tight_clean_pack (data : List Nat) (hpos : 0 < data.length)
    (hmax : data.length ≤ MAX_TIGHT_USEFUL_BYTES_PER_TX)
    (hne : data.length ≠ USEFUL_BYTES_PER_TIGHT_BLOB) (hbytes : ∀ b ∈ data, b < 256) :
    clean_field_elements_tight (((List.range
        ((data.length + USEFUL_BYTES_PER_TIGHT_BLOB - 1) / USEFUL_BYTES_PER_TIGHT_BLOB)).map
      fun i => get_packed_blob (((data ++ 0x80 :: List.replicate
          (((data.length + USEFUL_BYTES_PER_TIGHT_BLOB - 1) / USEFUL_BYTES_PER_TIGHT_BLOB) *
            USEFUL_BYTES_PER_TIGHT_BLOB - data.length - 1) 0).drop
        (i * USEFUL_BYTES_PER_TIGHT_BLOB)).take USEFUL_BYTES_PER_TIGHT_BLOB)).flatten)
      = data ++ 0x80 :: List.replicate
          (((data.length + USEFUL_BYTES_PER_TIGHT_BLOB - 1) / USEFUL_BYTES_PER_TIGHT_BLOB) *
            USEFUL_BYTES_PER_TIGHT_BLOB - data.length - 1) 0 := by
  have hlt := tight_bounds hpos hmax hne
  set n := (data.length + USEFUL_BYTES_PER_TIGHT_BLOB - 1) / USEFUL_BYTES_PER_TIGHT_BLOB with hn
  set padded := data ++ 0x80 ::
    List.replicate (n * USEFUL_BYTES_PER_TIGHT_BLOB - data.length - 1) 0 with hpadded
  have hplen : padded.length = n * USEFUL_BYTES_PER_TIGHT_BLOB := by
    rw [hpadded]
    simp only [List.length_append, List.length_cons, List.length_replicate]
    omega
  set cs := (List.range n).map
    (fun i => ((padded.drop (i * USEFUL_BYTES_PER_TIGHT_BLOB)).take
      USEFUL_BYTES_PER_TIGHT_BLOB)) with hcs
  have hfacts := tight_chunk_facts data hpos hmax hne hbytes
  rw [← hn, ← hpadded, ← hcs] at hfacts
  have hblobs : ((List.range n).map
      fun i => get_packed_blob ((padded.drop (i * USEFUL_BYTES_PER_TIGHT_BLOB)).take
        USEFUL_BYTES_PER_TIGHT_BLOB)) = cs.map get_packed_blob := by
    rw [hcs, List.map_map]
    rfl
  rw [hblobs,
    clean_tight_of_chunks cs (fun c hc => (hfacts c hc).1) (fun c hc => (hfacts c hc).2)]
  rw [hcs, flatten_range_chunks n USEFUL_BYTES_PER_TIGHT_BLOB padded hplen, hpadded]

theorem flatten_uniform_getElem : ∀ (P : List (List Nat)) (m : Nat),
    (∀ p ∈ P, p.length = m) → ∀ i r, i < P.length → r < m →
    P.flatten[m * i + r]? = (P.getD i [])[r]?
  | [], _, _, i, r, hi, _ => by simp at hi
  | p :: P, m, hlen, 0, r, _, hr => by
    have hp := hlen p (by simp)
    rw [List.flatten_cons, Nat.mul_zero, Nat.zero_add, List.getD_cons_zero,
      List.getElem?_append_left (by omega)]
  | p :: P, m, hlen, i + 1, r, hi, hr => by
    have hp := hlen p (by simp)
    rw [List.flatten_cons, List.getD_cons_succ,
      List.getElem?_append_right (by
        have : m * (i + 1) = m * i + m := by ring
        omega)]
    have harith : m * (i + 1) + r - p.length = m * i + r := by
      have : m * (i + 1) = m * i + m := by ring
      omega
    rw [harith]
    exact flatten_uniform_getElem P m (fun q hq => hlen q (by simp [hq])) i r
      (by simp only [List.length_cons] at hi; omega) hr

theorem tight_byte31 (c : List Nat) (hc : c.length = USEFUL_BYTES_PER_TIGHT_BLOB)
    (i : Nat) (hi : i < FIELD_ELEMENTS_PER_BLOB) :
    ∃ b, (get_packed_blob c)[32 * i + 31]? = some b ∧ b % 4 = 0 := by
  have hbits : (bytesToBits c).length = 1040384 := by
    rw [bytesToBits_length, hc, TU_eq]
  have hdvd : (253 + 1) ∣ (bytesToBits c).length := by
    rw [hbits]
    exact ⟨4096, by norm_num⟩
  have hchlen : ∀ ch ∈ chunksOf 253 (bytesToBits c), ch.length = 254 :=
    length_mem_chunksOf 253 (bytesToBits c) hdvd
  have hcount : (chunksOf 253 (bytesToBits c)).length = 4096 :=
    length_chunksOf_mul 253 4096 (bytesToBits c) (by rw [hbits])
  rw [TF_eq] at hi
  rw [get_packed_blob_flatten c hc]
  have hpiece : ∀ p ∈ (chunksOf 253 (bytesToBits c)).map
      (fun ch => bitsToBytes (ch ++ List.replicate (BYTES_PER_FIELD_ELEMENT * 8 - ch.length) 0)),
      p.length = 32 := by
    intro p hp
    rw [List.mem_map] at hp
    obtain ⟨ch, hch, rfl⟩ := hp
    apply bitsToBytes_length_of _ 32
    rw [List.length_append, List.length_replicate, hchlen ch hch]
    rfl
  rw [flatten_uniform_getElem _ 32 hpiece i 31
      (by rw [List.length_map, hcount]; exact hi) (by omega),
    map_getD _ _ i (by rw [hcount]; exact hi),
    chunksOf_getD 253 (bytesToBits c) i (by rw [hcount]; exact hi),
    show (253 : Nat) + 1 = 254 from rfl]
  set ch := ((bytesToBits c).drop (254 * i)).take 254 with hchdef
  have hchlen2 : ch.length = 254 := by
    rw [hchdef, List.length_take, List.length_drop, hbits]
    omega
  have hrep : BYTES_PER_FIELD_ELEMENT * 8 - ch.length = 2 := by
    rw [hchlen2]
    rfl
  rw [hrep, show (List.replicate 2 0 : List Nat) = [0, 0] from rfl]
  have hsplit : ch ++ [0, 0] = ch.take 248 ++ (ch.drop 248 ++ [0, 0]) := by
    rw [← List.append_assoc, List.take_append_drop]
  have htk : (ch.take 248).length = 248 := by
    rw [List.length_take]
    omega
  have hdr : (ch.drop 248 ++ [0, 0]).length = 8 := by
    rw [List.length_append, List.length_drop, hchlen2]
    rfl
  rw [hsplit, bitsToBytes_append8 _ (by rw [htk]; exact ⟨31, rfl⟩),
    bitsToBytes_single hdr]
  have hlen31 : (bitsToBytes (ch.take 248)).length = 31 :=
    bitsToBytes_length_of _ 31 (by rw [htk])
  refine ⟨bitsToByte (ch.drop 248 ++ [0, 0]), ?_, ?_⟩
  · rw [← hlen31]
    exact List.getElem?_concat_length _ _
  · exact bitsToByte_pad2_mod4 _ (by rw [List.length_drop, hchlen2])

end packer_tight

namespace packer

theorem enc31_element : ∀ (k : Nat) (d : List Nat) (i : Nat), i < k → 31 * k ≤ d.length →
    ((enc31 k d).drop (32 * i)).take 32 = (d.drop (31 * i)).take 31 ++ [0]
  | k + 1, d, 0, _, hd => by
    show ((d.take 31 ++ 0 :: enc31 k (d.drop 31)).drop (32 * 0)).take 32 = _
    rw [List.drop_zero, List.drop_zero]
    have htl : (d.take 31).length = 31 := by
      rw [List.length_take]
      omega
    rw [List.take_append_eq_append_take, List.take_of_length_le (by omega), htl,
      show (32 : Nat) - 31 = 1 from rfl, List.take_succ_cons, List.take_zero]
  | k + 1, d, i + 1, hi, hd => by
    show ((d.take 31 ++ 0 :: enc31 k (d.drop 31)).drop (32 * (i + 1))).take 32 = _
    have htl : (d.take 31).length = 31 := by
      rw [List.length_take]
      omega
    rw [List.drop_append_eq_append_drop,
      @List.drop_eq_nil_of_le _ (d.take 31) (32 * (i + 1)) (by omega), List.nil_append, htl,
      show 32 * (i + 1) - 31 = 32 * i + 1 from by omega, List.drop_succ_cons,
      enc31_element k (d.drop 31) i (by omega) (by rw [List.length_drop]; omega),
      List.drop_drop, show 31 + 31 * i = 31 * (i + 1) from by omega]

end packer

/-- Claim C3: get_blobs_from_data returns DataLengthError exactly when the input
is empty or longer than the strategy's max_useful_bytes_per_tx, for both the
naive and the tight packer; the guards are the first two steps of the function,
before any padding or encoding work. -/
theorem C3_data_length_error (data : List Nat) :
    (packer.get_blobs_from_data data = some (.error .DataLengthError) ↔
      data.length = 0 ∨ packer.MAX_USEFUL_BYTES_PER_TX < data.length) ∧
    (packer_tight.get_blobs_from_data data = some (.error .DataLengthError) ↔
      data.length = 0 ∨ packer_tight.MAX_TIGHT_USEFUL_BYTES_PER_TX < data.length) :=
  ⟨packer.naive_dle_iff data, packer_tight.tight_dle_iff data⟩

/-- Claim C6: unpad scans from the last byte backwards, skipping zero bytes; if
the first non-zero byte is 0x80 it returns the prefix strictly before it, any
other non-zero byte fails with UnpadError, and an input with no non-zero byte
(in particular an empty or all-zero input) fails with UnpadError.  Every byte
list has exactly one of the three shapes, so the three equations characterise
unpad completely, for the unpad of both source files. -/
theorem C6_unpad_spec (xs zs : List Nat) (y : Nat) (hzs : ∀ z ∈ zs, z = 0)
    (hy0 : y ≠ 0) (hy80 : y ≠ 0x80) :
    (packer.unpad (xs ++ 0x80 :: zs) = .ok xs ∧
      packer.unpad (xs ++ y :: zs) = .error .UnpadError ∧
      packer.unpad zs = .error .UnpadError) ∧
    (packer_tight.unpad (xs ++ 0x80 :: zs) = .ok xs ∧
      packer_tight.unpad (xs ++ y :: zs) = .error .UnpadError ∧
      packer_tight.unpad zs = .error .UnpadError) :=
  ⟨⟨packer.unpad_marker hzs, packer.unpad_bad_byte hzs hy0 hy80, packer.unpad_all_zero hzs⟩,
   ⟨packer_tight.tight_unpad_marker hzs, packer_tight.tight_unpad_bad_byte hzs hy0 hy80,
    packer_tight.tight_unpad_all_zero hzs⟩⟩

/-- Witness for claim C6 at xs = [3], y = 7, zs = [0, 0]. -/
theorem C6_unpad_spec_witness :
    (∀ z ∈ ([0, 0] : List Nat), z = 0) ∧ (7 : Nat) ≠ 0 ∧ (7 : Nat) ≠ 0x80 ∧
    ((packer.unpad ([3] ++ 0x80 :: [0, 0]) = .ok [3] ∧
      packer.unpad ([3] ++ 7 :: [0, 0]) = .error .UnpadError ∧
      packer.unpad [0, 0] = .error .UnpadError) ∧
     (packer_tight.unpad ([3] ++ 0x80 :: [0, 0]) = .ok [3] ∧
      packer_tight.unpad ([3] ++ 7 :: [0, 0]) = .error .UnpadError ∧
      packer_tight.unpad [0, 0] = .error .UnpadError)) :=
  ⟨by decide, by decide, by decide,
   C6_unpad_spec [3] [0, 0] 7 (by decide) (by decide) (by decide)⟩

/-- Claim C9: for a full naive chunk (31 x 1016 bytes), field element i of the
encoded blob carries chunk bytes 31i..31i+30 in its bytes 0-30 and its byte 31
is zero. -/
theorem C9_naive_layout (data : List Nat)
    (hlen : data.length = packer.USEFUL_BYTES_PER_BLOB) :
    ∀ i, i < packer.FIELD_ELEMENTS_PER_BLOB →
      ((packer.get_blob data).drop (32 * i)).take 32 = (data.drop (31 * i)).take 31 ++ [0] := by
  intro i hi
  rw [packer.get_blob_eq_enc31]
  apply packer.enc31_element packer.FIELD_ELEMENTS_PER_BLOB data i hi
  rw [hlen, packer.U_eq, packer.F_eq]

/-- Witness for claim C9 at the all-zero full chunk. -/
theorem C9_naive_layout_witness :
    (List.replicate 31496 0 : List Nat).length = packer.USEFUL_BYTES_PER_BLOB ∧
    ∀ i, i < packer.FIELD_ELEMENTS_PER_BLOB →
      ((packer.get_blob (List.replicate 31496 0)).drop (32 * i)).take 32
        = ((List.replicate 31496 0 : List Nat).drop (31 * i)).take 31 ++ [0] :=
  ⟨by rw [List.length_replicate]; rfl, C9_naive_layout (List.replicate 31496 0)
    (by rw [List.length_replicate]; rfl)⟩

/-- Claim C8: the tight encoder views a full 130048-byte chunk (exactly
254 x 4096 bits, so the partition into 254-bit groups is even) as an Msb0
bitstream and writes group i into the high 254 bits of 32-byte field element i,
leaving the 2 low-order bits of the element zero. -/
theorem C8_tight_layout (data : List Nat)
    (hlen : data.length = packer_tight.USEFUL_BYTES_PER_TIGHT_BLOB) :
    8 * packer_tight.USEFUL_BYTES_PER_TIGHT_BLOB
      = 254 * packer_tight.FIELD_ELEMENTS_PER_BLOB ∧
    ∀ i, i < packer_tight.FIELD_ELEMENTS_PER_BLOB →
      packer_tight.bytesToBits (((packer_tight.get_packed_blob data).drop (32 * i)).take 32)
        = ((packer_tight.bytesToBits data).drop (254 * i)).take 254 ++ [0, 0] :=
  ⟨rfl, fun i hi => packer_tight.tight_element data hlen i hi⟩

/-- Witness for claim C8 at the all-zero full chunk. -/
theorem C8_tight_layout_witness :
    (List.replicate 130048 0 : List Nat).length
      = packer_tight.USEFUL_BYTES_PER_TIGHT_BLOB ∧
    (8 * packer_tight.USEFUL_BYTES_PER_TIGHT_BLOB
      = 254 * packer_tight.FIELD_ELEMENTS_PER_BLOB ∧
    ∀ i, i < packer_tight.FIELD_ELEMENTS_PER_BLOB →
      packer_tight.bytesToBits
          (((packer_tight.get_packed_blob (List.replicate 130048 0)).drop (32 * i)).take 32)
        = ((packer_tight.bytesToBits (List.replicate 130048 0)).drop (254 * i)).take 254
          ++ [0, 0]) :=
  ⟨by rw [List.length_replicate]; rfl, C8_tight_layout (List.replicate 130048 0)
    (by rw [List.length_replicate]; rfl)⟩

/-- Claim C5: in every blob sequence returned by get_blobs_from_data, every
32-byte field element has its reserved bits zero: byte 31 of each element is
0x00 for the naive strategy, and the 2 low-order bits of each element (the low
2 bits of its byte 31) are zero for the tight strategy, for any payload. -/
theorem C5_reserved_bits (data : List Nat) (blobs : List (List Nat)) :
    (packer.get_blobs_from_data data = some (.ok blobs) →
      ∀ blob ∈ blobs, ∀ i, i < packer.FIELD_ELEMENTS_PER_BLOB →
        blob[32 * i + 31]? = some 0) ∧
    (packer_tight.get_blobs_from_data data = some (.ok blobs) →
      ∀ blob ∈ blobs, ∀ i, i < packer_tight.FIELD_ELEMENTS_PER_BLOB →
        ∃ b, blob[32 * i + 31]? = some b ∧ b % 4 = 0) := by
  constructor
  · intro h
    exact packer.naive_reserved_bytes h
  · intro h blob hblob i hi
    obtain ⟨n, padded, hplen, hblobs⟩ := packer_tight.tight_pack_inv h
    subst hblobs
    rw [List.mem_map] at hblob
    obtain ⟨j, hj, rfl⟩ := hblob
    rw [List.mem_range] at hj
    exact packer_tight.tight_byte31 _
      (packer_tight.chunk_take_drop_length padded n
        packer_tight.USEFUL_BYTES_PER_TIGHT_BLOB j hplen hj) i hi

/-- Witness for claim C5 at the one-byte payload [1]: both packers succeed and
the reserved bits of every element of the returned blobs are zero. -/
theorem C5_reserved_bits_witness :
    (∀ blob ∈ (List.range ((([1] : List Nat).length + packer.USEFUL_BYTES_PER_BLOB - 1) /
          packer.USEFUL_BYTES_PER_BLOB)).map
        (fun i => packer.get_blob ((([1] ++ 0x80 :: List.replicate
            (((([1] : List Nat).length + packer.USEFUL_BYTES_PER_BLOB - 1) /
                packer.USEFUL_BYTES_PER_BLOB) * packer.USEFUL_BYTES_PER_BLOB -
              ([1] : List Nat).length - 1) 0).drop
          (i * packer.USEFUL_BYTES_PER_BLOB)).take packer.USEFUL_BYTES_PER_BLOB)),
      ∀ i, i < packer.FIELD_ELEMENTS_PER_BLOB → blob[32 * i + 31]? = some 0) ∧
    (∀ blob ∈ (List.range
          ((([1] : List Nat).length + packer_tight.USEFUL_BYTES_PER_TIGHT_BLOB - 1) /
            packer_tight.USEFUL_BYTES_PER_TIGHT_BLOB)).map
        (fun i => packer_tight.get_packed_blob ((([1] ++ 0x80 :: List.replicate
            (((([1] : List Nat).length + packer_tight.USEFUL_BYTES_PER_TIGHT_BLOB - 1) /
                packer_tight.USEFUL_BYTES_PER_TIGHT_BLOB) *
              packer_tight.USEFUL_BYTES_PER_TIGHT_BLOB - ([1] : List Nat).length - 1) 0).drop
          (i * packer_tight.USEFUL_BYTES_PER_TIGHT_BLOB)).take
            packer_tight.USEFUL_BYTES_PER_TIGHT_BLOB)),
      ∀ i, i < packer_tight.FIELD_ELEMENTS_PER_BLOB →
        ∃ b, blob[32 * i + 31]? = some b ∧ b % 4 = 0) :=
  ⟨(C5_reserved_bits [1] _).1 (packer.naive_pack_eq [1] (by decide) (by decide) (by decide)),
   (C5_reserved_bits [1] _).2
     (packer_tight.tight_pack_eq [1] (by decide) (by decide) (by decide))⟩

/-- Claim C10 (implicit): unpack can return Ok with the empty payload, for a
blob sequence whose decoded stream has its 0x80 marker at offset 0, even though
get_blobs_from_data rejects the empty payload with DataLengthError, so the set
of successful unpack outputs is not limited to what pack can produce. -/
theorem C10_unpack_empty :
    packer.unpack [packer.get_blob (0x80 :: List.replicate 31495 0)] = .ok [] ∧
    packer.get_blobs_from_data [] = some (.error .DataLengthError) ∧
    packer_tight.unpack [packer_tight.get_packed_blob (0x80 :: List.replicate 130047 0)]
      = .ok [] ∧
    packer_tight.get_blobs_from_data [] = some (.error .DataLengthError) := by
  refine ⟨?_, ?_, ?_, ?_⟩
  · obtain ⟨Q, zs, h1, h2, h3, h4⟩ := packer.enc31_padded_split 1016 [] 31495 (by decide)
    rw [List.nil_append] at h1
    rw [packer.unpack, List.flatten_cons, List.flatten_nil, List.append_nil,
      packer.get_blob_eq_enc31, packer.F_eq, h1, packer.unpad_marker h2]
    show Except.ok (packer.clean_field_elements Q) = Except.ok []
    rw [show packer.clean_field_elements Q = packer.clean_from 0 Q from rfl, h3]
  · rw [packer.get_blobs_from_data, if_pos (show ([] : List Nat).length = 0 from rfl)]
  · rw [packer_tight.unpack,
      show ([packer_tight.get_packed_blob (0x80 :: List.replicate 130047 0)] : List (List Nat))
        = [((0x80 : Nat) :: List.replicate 130047 0)].map packer_tight.get_packed_blob from rfl,
      packer_tight.clean_tight_of_chunks _ ?len ?bytes, List.flatten_cons, List.flatten_nil,
      List.append_nil]
    · have hm := @packer_tight.tight_unpad_marker [] (List.replicate 130047 0)
        (fun z hz => List.eq_of_mem_replicate hz)
      rw [List.nil_append] at hm
      exact hm
    case len =>
      intro c hc
      simp only [List.mem_singleton] at hc
      subst hc
      rw [List.length_cons, List.length_replicate]
      rfl
    case bytes =>
      intro c hc
      simp only [List.mem_singleton] at hc
      subst hc
      intro b hb
      rcases List.mem_cons.mp hb with h | h
      · omega
      · have := List.eq_of_mem_replicate h
        omega
  · rw [packer_tight.get_blobs_from_data, if_pos (show ([] : List Nat).length = 0 from rfl)]

/-- Counterexample to claim C1 as stated: a payload of exactly
usable_bytes_per_blob bytes (31496 naive, 130048 tight) is accepted by the size
guards, yet get_blobs_from_data hits the out-of-bounds 0x80 marker write in
get_padded (the XXX comment in the source) and aborts, modelled by none; hence
no blob sequence exists to unpack, and the round trip fails for this accepted
payload. -/
theorem C1_counterexample :
    (0 < (List.replicate 31496 0 : List Nat).length ∧
      (List.replicate 31496 0 : List Nat).length ≤ packer.MAX_USEFUL_BYTES_PER_TX ∧
      packer.get_blobs_from_data (List.replicate 31496 0) = none ∧
      ¬ ∃ blobs, packer.get_blobs_from_data (List.replicate 31496 0) = some (.ok blobs) ∧
          packer.unpack blobs = .ok (List.replicate 31496 0)) ∧
    (0 < (List.replicate 130048 0 : List Nat).length ∧
      (List.replicate 130048 0 : List Nat).length ≤
        packer_tight.MAX_TIGHT_USEFUL_BYTES_PER_TX ∧
      packer_tight.get_blobs_from_data (List.replicate 130048 0) = none ∧
      ¬ ∃ blobs, packer_tight.get_blobs_from_data (List.replicate 130048 0)
          = some (.ok blobs) ∧
          packer_tight.unpack blobs = .ok (List.replicate 130048 0)) := by
  have hn1 : packer.get_blobs_from_data (List.replicate 31496 0) = none :=
    packer.naive_exact_fit_none _ (by rw [List.length_replicate]; rfl)
  have hn2 : packer_tight.get_blobs_from_data (List.replicate 130048 0) = none :=
    packer_tight.tight_exact_fit_none _ (by rw [List.length_replicate]; rfl)
  refine ⟨⟨?_, ?_, hn1, ?_⟩, ?_, ?_, hn2, ?_⟩
  · rw [List.length_replicate]
    omega
  · rw [List.length_replicate, packer.MAX_eq]
    omega
  · rintro ⟨blobs, hb, _⟩
    rw [hn1] at hb
    exact Option.noConfusion hb
  · rw [List.length_replicate]
    omega
  · rw [List.length_replicate, packer_tight.TMAX_eq]
    omega
  · rintro ⟨blobs, hb, _⟩
    rw [hn2] at hb
    exact Option.noConfusion hb

/-- Claim C1 (amended): the round trip holds for every byte payload with
0 < len <= max_useful_bytes_per_tx whose length is not exactly
usable_bytes_per_blob (the one in-range length on which the marker write of
get_padded is out of bounds): pack returns Ok and unpacking the returned blob
sequence gives back the payload byte for byte, for both strategies. -/
theorem C1_round_trip (data : List Nat) (h256 : ∀ b ∈ data, b < 256)
    (hpos : 0 < data.length) :
    (data.length ≤ packer.MAX_USEFUL_BYTES_PER_TX →
      data.length ≠ packer.USEFUL_BYTES_PER_BLOB →
      ∃ blobs, packer.get_blobs_from_data data = some (.ok blobs) ∧
        packer.unpack blobs = .ok data) ∧
    (data.length ≤ packer_tight.MAX_TIGHT_USEFUL_BYTES_PER_TX →
      data.length ≠ packer_tight.USEFUL_BYTES_PER_TIGHT_BLOB →
      ∃ blobs, packer_tight.get_blobs_from_data data = some (.ok blobs) ∧
        packer_tight.unpack blobs = .ok data) := by
  constructor
  · intro hmax hne
    exact ⟨_, packer.naive_pack_eq data hpos hmax hne,
      packer.naive_unpack_eq data hpos hmax hne⟩
  · intro hmax hne
    exact ⟨_, packer_tight.tight_pack_eq data hpos hmax hne,
      packer_tight.tight_unpack_eq data hpos hmax hne h256⟩

/-- Witness for (amended) claim C1 at the one-byte payload [1]. -/
theorem C1_round_trip_witness :
    (∀ b ∈ ([1] : List Nat), b < 256) ∧ 0 < ([1] : List Nat).length ∧
    ((([1] : List Nat).length ≤ packer.MAX_USEFUL_BYTES_PER_TX →
      ([1] : List Nat).length ≠ packer.USEFUL_BYTES_PER_BLOB →
      ∃ blobs, packer.get_blobs_from_data [1] = some (.ok blobs) ∧
        packer.unpack blobs = .ok [1]) ∧
    (([1] : List Nat).length ≤ packer_tight.MAX_TIGHT_USEFUL_BYTES_PER_TX →
      ([1] : List Nat).length ≠ packer_tight.USEFUL_BYTES_PER_TIGHT_BLOB →
      ∃ blobs, packer_tight.get_blobs_from_data [1] = some (.ok blobs) ∧
        packer_tight.unpack blobs = .ok [1])) :=
  ⟨by decide, by decide, C1_round_trip [1] (by decide) (by decide)⟩

/-- Claim C2 is right about the intent and wrong about the code: a payload
whose length is exactly usable_bytes_per_blob (a nonzero multiple of it within
the transaction maximum) passes both DataLengthError guards, yet the padding
marker write padded_data[data.len()] is out of bounds (the buffer is exactly
data.len() bytes), so get_blobs_from_data aborts instead of returning a typed
result; the model returns none.  The source itself flags this: XXX bugs if
exactly the right amount of data. -/
theorem C2_exact_fit_aborts :
    (0 < (List.replicate packer.USEFUL_BYTES_PER_BLOB 1 : List Nat).length ∧
      (List.replicate packer.USEFUL_BYTES_PER_BLOB 1 : List Nat).length ≤
        packer.MAX_USEFUL_BYTES_PER_TX ∧
      packer.get_blobs_from_data (List.replicate packer.USEFUL_BYTES_PER_BLOB 1) = none) ∧
    (0 < (List.replicate packer_tight.USEFUL_BYTES_PER_TIGHT_BLOB 1 : List Nat).length ∧
      (List.replicate packer_tight.USEFUL_BYTES_PER_TIGHT_BLOB 1 : List Nat).length ≤
        packer_tight.MAX_TIGHT_USEFUL_BYTES_PER_TX ∧
      packer_tight.get_blobs_from_data
        (List.replicate packer_tight.USEFUL_BYTES_PER_TIGHT_BLOB 1) = none) := by
  refine ⟨⟨?_, ?_, packer.naive_exact_fit_none _ (by rw [List.length_replicate])⟩,
    ?_, ?_, packer_tight.tight_exact_fit_none _ (by rw [List.length_replicate])⟩
  · rw [List.length_replicate, packer.U_eq]
    omega
  · rw [List.length_replicate, packer.U_eq, packer.MAX_eq]
    omega
  · rw [List.length_replicate, packer_tight.TU_eq]
    omega
  · rw [List.length_replicate, packer_tight.TU_eq, packer_tight.TMAX_eq]
    omega

/-- Counterexample to claim C4 as stated: the 31496-byte payload is accepted
(0 < 31496 <= 62991) and ceil(31496 / 31496) = 1, yet the naive
get_blobs_from_data aborts on the out-of-bounds marker write (modelled none),
so it does not return the promised single blob. -/
theorem C4_counterexample :
    0 < (List.replicate 31496 7 : List Nat).length ∧
    (List.replicate 31496 7 : List Nat).length ≤ packer.MAX_USEFUL_BYTES_PER_TX ∧
    ((List.replicate 31496 7 : List Nat).length + packer.USEFUL_BYTES_PER_BLOB - 1) /
        packer.USEFUL_BYTES_PER_BLOB = 1 ∧
    packer.get_blobs_from_data (List.replicate 31496 7) = none ∧
    ¬ ∃ blobs, packer.get_blobs_from_data (List.replicate 31496 7) = some (.ok blobs) ∧
        blobs.length = 1 := by
  have hn : packer.get_blobs_from_data (List.replicate 31496 7) = none :=
    packer.naive_exact_fit_none _ (by rw [List.length_replicate]; rfl)
  refine ⟨?_, ?_, ?_, hn, ?_⟩
  · rw [List.length_replicate]
    omega
  · rw [List.length_replicate, packer.MAX_eq]
    omega
  · rw [List.length_replicate, packer.U_eq]
  · rintro ⟨blobs, hb, _⟩
    rw [hn] at hb
    exact Option.noConfusion hb

/-- Claim C4 (amended): for every accepted payload whose length is not exactly
usable_bytes_per_blob, pack returns Ok with exactly
ceil(len / usable_bytes_per_blob) blobs; in particular a payload of exactly
max_useful_bytes_per_tx bytes produces exactly max_blobs_per_tx = 2 blobs, for
both strategies. -/
theorem C4_blob_count (data : List Nat) (hpos : 0 < data.length) :
    (data.length ≤ packer.MAX_USEFUL_BYTES_PER_TX →
      data.length ≠ packer.USEFUL_BYTES_PER_BLOB →
      ∃ blobs, packer.get_blobs_from_data data = some (.ok blobs) ∧
        blobs.length = (data.length + packer.USEFUL_BYTES_PER_BLOB - 1) /
          packer.USEFUL_BYTES_PER_BLOB ∧
        (data.length = packer.MAX_USEFUL_BYTES_PER_TX →
          blobs.length = packer.MAX_BLOBS_PER_TX)) ∧
    (data.length ≤ packer_tight.MAX_TIGHT_USEFUL_BYTES_PER_TX →
      data.length ≠ packer_tight.USEFUL_BYTES_PER_TIGHT_BLOB →
      ∃ blobs, packer_tight.get_blobs_from_data data = some (.ok blobs) ∧
        blobs.length = (data.length + packer_tight.USEFUL_BYTES_PER_TIGHT_BLOB - 1) /
          packer_tight.USEFUL_BYTES_PER_TIGHT_BLOB ∧
        (data.length = packer_tight.MAX_TIGHT_USEFUL_BYTES_PER_TX →
          blobs.length = packer_tight.MAX_BLOBS_PER_TX)) := by
  constructor
  · intro hmax hne
    refine ⟨_, packer.naive_pack_eq data hpos hmax hne, ?_, ?_⟩
    · rw [List.length_map, List.length_range]
    · intro hM
      rw [List.length_map, List.length_range, hM]
      decide
  · intro hmax hne
    refine ⟨_, packer_tight.tight_pack_eq data hpos hmax hne, ?_, ?_⟩
    · rw [List.length_map, List.length_range]
    · intro hM
      rw [List.length_map, List.length_range, hM]
      decide

/-- Witness for (amended) claim C4 at the one-byte payload [1]. -/
theorem C4_blob_count_witness :
    0 < ([1] : List Nat).length ∧
    ((([1] : List Nat).length ≤ packer.MAX_USEFUL_BYTES_PER_TX →
      ([1] : List Nat).length ≠ packer.USEFUL_BYTES_PER_BLOB →
      ∃ blobs, packer.get_blobs_from_data [1] = some (.ok blobs) ∧
        blobs.length = (([1] : List Nat).length + packer.USEFUL_BYTES_PER_BLOB - 1) /
          packer.USEFUL_BYTES_PER_BLOB ∧
        (([1] : List Nat).length = packer.MAX_USEFUL_BYTES_PER_TX →
          blobs.length = packer.MAX_BLOBS_PER_TX)) ∧
    (([1] : List Nat).length ≤ packer_tight.MAX_TIGHT_USEFUL_BYTES_PER_TX →
      ([1] : List Nat).length ≠ packer_tight.USEFUL_BYTES_PER_TIGHT_BLOB →
      ∃ blobs, packer_tight.get_blobs_from_data [1] = some (.ok blobs) ∧
        blobs.length = (([1] : List Nat).length + packer_tight.USEFUL_BYTES_PER_TIGHT_BLOB - 1) /
          packer_tight.USEFUL_BYTES_PER_TIGHT_BLOB ∧
        (([1] : List Nat).length = packer_tight.MAX_TIGHT_USEFUL_BYTES_PER_TX →
          blobs.length = packer_tight.MAX_BLOBS_PER_TX))) :=
  ⟨by decide, C4_blob_count [1] (by decide)⟩

/-- Counterexample to claim C7 as stated: for the accepted payload [1], the
zero-fill byte at decoded-stream offset 2 (strictly after the 0x80 marker at
offset 1) lies at wire offset 2 of the single naive blob; changing it to the
nonzero value 0x80 makes unpack return Ok [1, 0x80] instead of failing with
UnpadError, because the scan accepts the flipped byte as a new marker. -/
theorem C7_counterexample :
    packer.get_blobs_from_data [1]
      = some (.ok [packer.get_blob ((1 : Nat) :: 0x80 :: List.replicate 31494 0)]) ∧
    packer.unpack [(packer.get_blob ((1 : Nat) :: 0x80 :: List.replicate 31494 0)).set 2 0x80]
      = .ok [1, 0x80] ∧
    (Except.ok [1, 0x80] : Except packer.PackingError (List Nat)) ≠ .error .UnpadError := by
  have hblob : packer.get_blob ((1 : Nat) :: 0x80 :: List.replicate 31494 0)
      = 1 :: 0x80 :: 0 ::
        (List.replicate 28 0 ++ 0 :: packer.enc31 1015 (List.replicate 31465 0)) := by
    have hsplitp : (1 : Nat) :: 0x80 :: List.replicate 31494 0
        = ([1, 0x80] ++ List.replicate 29 0) ++ List.replicate 31465 0 := by
      rw [show (31494 : Nat) = 29 + 31465 from by norm_num, List.replicate_add,
        List.append_assoc]
      rfl
    have hA : (([1, 0x80] ++ List.replicate 29 0 : List Nat)).length = 31 := by
      rw [List.length_append, List.length_replicate]
      rfl
    rw [packer.get_blob_eq_enc31, packer.F_eq, show (1016 : Nat) = 1015 + 1 from rfl]
    show ((1 : Nat) :: 0x80 :: List.replicate 31494 0).take 31 ++
        0 :: packer.enc31 1015 (((1 : Nat) :: 0x80 :: List.replicate 31494 0).drop 31) = _
    rw [hsplitp, List.take_append_of_le_length (by omega), List.drop_append_eq_append_drop,
      @List.drop_eq_nil_of_le _ ([1, 0x80] ++ List.replicate 29 0) 31 (by omega),
      List.nil_append, hA, Nat.sub_self, List.drop_zero, List.take_of_length_le (by omega),
      show (List.replicate 29 (0 : Nat)) = 0 :: List.replicate 28 0 from rfl,
      List.append_assoc]
    rfl
  refine ⟨?_, ?_, fun hcon => Except.noConfusion hcon⟩
  · have h := packer.naive_pack_eq [1] (by decide) (by decide) (by decide)
    rw [h]
    have hq : (([1] : List Nat).length + packer.USEFUL_BYTES_PER_BLOB - 1) /
        packer.USEFUL_BYTES_PER_BLOB = 1 := by decide
    rw [hq, show List.range 1 = [0] from rfl, List.map_cons, List.map_nil]
    have hz : (1 * packer.USEFUL_BYTES_PER_BLOB - ([1] : List Nat).length - 1) = 31494 := by
      decide
    rw [hz, List.singleton_append, Nat.zero_mul, List.drop_zero,
      List.take_of_length_le (by
        rw [List.length_cons, List.length_cons, List.length_replicate, packer.U_eq])]
  · rw [packer.unpack, List.flatten_cons, List.flatten_nil, List.append_nil, hblob,
      show ((1 : Nat) :: 0x80 :: 0 ::
          (List.replicate 28 0 ++ 0 :: packer.enc31 1015 (List.replicate 31465 0))).set 2 0x80
        = [1, 0x80] ++ 0x80 ::
          (List.replicate 28 0 ++ 0 :: packer.enc31 1015 (List.replicate 31465 0)) from rfl,
      packer.unpad_marker ?zeros]
    case zeros =>
      intro x hx
      rcases List.mem_append.mp hx with h | h
      · exact List.eq_of_mem_replicate h
      · rcases List.mem_cons.mp h with h | h
        · exact h
        · exact packer.enc31_zeros 1015 31465 x h
    show Except.ok (packer.clean_field_elements [1, 0x80]) = Except.ok [1, 0x80]
    rfl

/-- Claim C7 (amended): for every accepted payload and every zero-fill byte of
the padding region (decoded-stream offset j with payload length < j <
n_blobs * usable_bytes_per_blob; the 0x80 marker sits at offset equal to the
payload length), changing that byte to any nonzero value OTHER THAN 0x80 makes
unpack fail with UnpadError.  For the naive strategy decoded offset j is wire
offset j + j / 31 of the concatenated blobs; for the tight strategy the change
is stated on the decoded (cleaned) stream.  The exception for 0x80 is forced by
the counterexample: that value creates a new valid marker and unpack returns Ok. -/
theorem C7_corruption (data : List Nat) (j v : Nat) (h256 : ∀ b ∈ data, b < 256)
    (hpos : 0 < data.length) (hj : data.length < j) (hv0 : v ≠ 0) (hv80 : v ≠ 0x80) :
    (data.length ≤ packer.MAX_USEFUL_BYTES_PER_TX →
      data.length ≠ packer.USEFUL_BYTES_PER_BLOB →
      j < ((data.length + packer.USEFUL_BYTES_PER_BLOB - 1) / packer.USEFUL_BYTES_PER_BLOB) *
        packer.USEFUL_BYTES_PER_BLOB →
      ∃ blobs, packer.get_blobs_from_data data = some (.ok blobs) ∧
        ∀ blobs2 : List (List Nat), blobs2.flatten = blobs.flatten.set (j + j / 31) v →
          packer.unpack blobs2 = .error .UnpadError) ∧
    (data.length ≤ packer_tight.MAX_TIGHT_USEFUL_BYTES_PER_TX →
      data.length ≠ packer_tight.USEFUL_BYTES_PER_TIGHT_BLOB →
      j < ((data.length + packer_tight.USEFUL_BYTES_PER_TIGHT_BLOB - 1) /
          packer_tight.USEFUL_BYTES_PER_TIGHT_BLOB) * packer_tight.USEFUL_BYTES_PER_TIGHT_BLOB →
      ∃ blobs, packer_tight.get_blobs_from_data data = some (.ok blobs) ∧
        ∀ blobs2 : List (List Nat),
          packer_tight.clean_field_elements_tight blobs2.flatten
            = (packer_tight.clean_field_elements_tight blobs.flatten).set j v →
          packer_tight.unpack blobs2 = .error .UnpadError) := by
  constructor
  · intro hmax hne hjlt
    refine ⟨_, packer.naive_pack_eq data hpos hmax hne, ?_⟩
    intro blobs2 hb2
    have hlt := packer.naive_bounds hpos hmax hne
    set n := (data.length + packer.USEFUL_BYTES_PER_BLOB - 1) / packer.USEFUL_BYTES_PER_BLOB
      with hn
    set padded := data ++ 0x80 ::
      List.replicate (n * packer.USEFUL_BYTES_PER_BLOB - data.length - 1) 0 with hpadded
    have hplen : padded.length = n * packer.USEFUL_BYTES_PER_BLOB := by
      rw [hpadded]
      simp only [List.length_append, List.length_cons, List.length_replicate]
      omega
    have hflat := packer.flatten_map_get_blob n padded hplen
    have hz2 : data.length + 1 + (n * packer.USEFUL_BYTES_PER_BLOB - data.length - 1)
        = 31 * (packer.FIELD_ELEMENTS_PER_BLOB * n) := by
      rw [packer.U_eq] at *
      rw [packer.F_eq]
      omega
    obtain ⟨Q, zs, h1, h2, h3, h4⟩ := packer.enc31_padded_split
      (packer.FIELD_ELEMENTS_PER_BLOB * n) data
      (n * packer.USEFUL_BYTES_PER_BLOB - data.length - 1) hz2
    rw [← hpadded] at h1
    have hslen : (Q ++ 0x80 :: zs).length = 32 * (packer.FIELD_ELEMENTS_PER_BLOB * n) := by
      rw [← h1]
      apply packer.enc31_length
      rw [hplen, packer.U_eq, packer.F_eq]
      omega
    rw [packer.unpack, hb2, hflat, h1,
      packer.unpad_set_after_marker h2 ?hq ?hp hv0 hv80]
    case hq =>
      rw [h4]
      have hdiv : data.length / 31 ≤ j / 31 := Nat.div_le_div_right (by omega)
      omega
    case hp =>
      rw [hslen, packer.F_eq]
      rw [packer.U_eq] at hjlt
      omega
  · intro hmax hne hjlt
    refine ⟨_, packer_tight.tight_pack_eq data hpos hmax hne, ?_⟩
    intro blobs2 hb2
    have hlt := packer_tight.tight_bounds hpos hmax hne
    have hclean := packer_tight.tight_clean_pack data hpos hmax hne h256
    rw [hclean] at hb2
    rw [packer_tight.unpack, hb2,
      packer_tight.tight_unpad_set_after_marker ?z2 hj ?hp2 hv0 hv80]
    case z2 =>
      intro x hx
      exact List.eq_of_mem_replicate hx
    case hp2 =>
      rw [List.length_append, List.length_cons, List.length_replicate]
      rw [packer_tight.TU_eq] at hjlt hlt ⊢
      omega

/-- Witness for (amended) claim C7 at payload [1], padding offset j = 2 and
replacement value v = 5. -/
theorem C7_corruption_witness :
    (∀ b ∈ ([1] : List Nat), b < 256) ∧ 0 < ([1] : List Nat).length ∧
    ([1] : List Nat).length < 2 ∧ (5 : Nat) ≠ 0 ∧ (5 : Nat) ≠ 0x80 ∧
    ((([1] : List Nat).length ≤ packer.MAX_USEFUL_BYTES_PER_TX →
      ([1] : List Nat).length ≠ packer.USEFUL_BYTES_PER_BLOB →
      2 < ((([1] : List Nat).length + packer.USEFUL_BYTES_PER_BLOB - 1) /
          packer.USEFUL_BYTES_PER_BLOB) * packer.USEFUL_BYTES_PER_BLOB →
      ∃ blobs, packer.get_blobs_from_data [1] = some (.ok blobs) ∧
        ∀ blobs2 : List (List Nat), blobs2.flatten = blobs.flatten.set (2 + 2 / 31) 5 →
          packer.unpack blobs2 = .error .UnpadError) ∧
    (([1] : List Nat).length ≤ packer_tight.MAX_TIGHT_USEFUL_BYTES_PER_TX →
      ([1] : List Nat).length ≠ packer_tight.USEFUL_BYTES_PER_TIGHT_BLOB →
      2 < ((([1] : List Nat).length + packer_tight.USEFUL_BYTES_PER_TIGHT_BLOB - 1) /
          packer_tight.USEFUL_BYTES_PER_TIGHT_BLOB) *
            packer_tight.USEFUL_BYTES_PER_TIGHT_BLOB →
      ∃ blobs, packer_tight.get_blobs_from_data [1] = some (.ok blobs) ∧
        ∀ blobs2 : List (List Nat),
          packer_tight.clean_field_elements_tight blobs2.flatten
            = (packer_tight.clean_field_elements_tight blobs.flatten).set 2 5 →
          packer_tight.unpack blobs2 = .error .UnpadError)) :=
  ⟨by decide, by decide, by decide, by decide, by decide,
   C7_corruption [1] 2 5 (by decide) (by decide) (by decide) (by decide) (by decide)⟩
